import Mathlib

/-!
Verification of the subject-matching trie (src/lib.rs, src/node.rs, src/token.rs,
src/error.rs) against its natural-language specification.

The embedding mirrors the source:
 - Node (src/node.rs) is a trie vertex with literal children (a HashMap,
   embedded as an association list), an optional single-wildcard child
   (field o_node, called onode at the use sites in lib.rs), a multi-wildcard
   value set and a terminal value set (HashSets, embedded as duplicate-free
   lists maintained by setInsert).
 - Trie (src/lib.rs) holds the root node plus the configuration: the
   separator char sc, the one-token wildcard string owc and the multi-token
   wildcard string mwc.
 - Operations that take a mutable reference in Rust and can mutate before a
   validation error (insert, remove, remove_all) return the possibly mutated
   trie together with the Except result, exactly as the Rust state persists
   across an early Err return.
-/

namespace TrieModel

/-- Error type from src/error.rs: an empty token (including an empty key), or a
token following the multi-layer wildcard token. Both carry the offending key. -/
inductive Error : Type where
  | EmptyToken (key : String)
  | TokenAfterMwc (key : String)
deriving DecidableEq

/-- Concatenation of the images of a list under a list-valued function, used to
embed the loops in src/lib.rs that extend a vector once per node. -/
def joinMap {α β : Type} (f : α → List β) : List α → List β
  | [] => []
  | a :: l => f a ++ joinMap f l

variable {V : Type}

/-- HashSet::insert on the embedded value sets: appends the value when absent,
keeps the set unchanged when present. -/
def setInsert [DecidableEq V] (v : V) (s : List V) : List V :=
  if v ∈ s then s else s ++ [v]

/-- Trie node from src/node.rs: literal children map, optional single-wildcard
child node, multi-wildcard value set, terminal value set. -/
inductive Node (V : Type) : Type where
  | mk (children : List (String × Node V)) (onode : Option (Node V))
       (mValueSet : List V) (valueSet : List V)

/-- Literal-children association list of a node. -/
def Node.children : Node V → List (String × Node V)
  | .mk c _ _ _ => c

/-- Optional single-wildcard child of a node (field o_node in src/node.rs). -/
def Node.onode : Node V → Option (Node V)
  | .mk _ o _ _ => o

/-- Multi-wildcard value set of a node (field m_value_set in src/node.rs). -/
def Node.mValueSet : Node V → List V
  | .mk _ _ m _ => m

/-- Terminal value set of a node (field value_set in src/node.rs). -/
def Node.valueSet : Node V → List V
  | .mk _ _ _ s => s

/-- Node::new / Default: empty children, no wildcard child, empty sets. -/
def Node.empty : Node V := .mk [] none [] []

/-- Node::add: inserts into the terminal value set, reporting whether the value
was newly inserted (the HashSet::insert return value). -/
def Node.add [DecidableEq V] (v : V) : Node V → Bool × Node V
  | .mk c o m s => (decide (v ∉ s), .mk c o m (setInsert v s))

/-- Node::mwc_add: inserts into the multi-wildcard value set, reporting whether
the value was newly inserted. -/
def Node.mwcAdd [DecidableEq V] (v : V) : Node V → Bool × Node V
  | .mk c o m s => (decide (v ∉ m), .mk c o (setInsert v m) s)

/-- Node::remove: removes from the terminal value set, reporting presence. -/
def Node.removeV [DecidableEq V] (v : V) : Node V → Bool × Node V
  | .mk c o m s => (decide (v ∈ s), .mk c o m (s.erase v))

/-- Node::mwc_remove: removes from the multi-wildcard set, reporting presence. -/
def Node.mwcRemove [DecidableEq V] (v : V) : Node V → Bool × Node V
  | .mk c o m s => (decide (v ∈ m), .mk c o (m.erase v) s)

/-- Node::remove_all: clears the terminal value set and reports whether it was
non-empty before the call. -/
def Node.removeAllV : Node V → Bool × Node V
  | .mk c o m s => (!s.isEmpty, .mk c o m [])

/-- Node::mwc_remove_all: clears the multi-wildcard value set and reports
whether it was non-empty before the call. -/
def Node.mwcRemoveAll : Node V → Bool × Node V
  | .mk c o m _s => (!m.isEmpty, .mk c o [] _s)

/-- HashMap::get on the embedded children list. -/
def lookupChild (tok : String) : List (String × Node V) → Option (Node V)
  | [] => none
  | (k, c) :: rest => if k = tok then some c else lookupChild tok rest

/-- HashMap entry update: replaces the child bound to the token, appending a
fresh binding when the token is absent (entry or_insert followed by in-place
mutation of the child). -/
def updChild (tok : String) (c : Node V) : List (String × Node V) → List (String × Node V)
  | [] => [(tok, c)]
  | (k, c0) :: rest => if k = tok then (tok, c) :: rest else (k, c0) :: updChild tok c rest

/-- Node::get_child_node: lookup of a literal child. -/
def Node.getChild (tok : String) (n : Node V) : Option (Node V) :=
  lookupChild tok n.children

/-- Functional counterpart of mutating the child bound to a token in place. -/
def Node.setChild : Node V → String → Node V → Node V
  | .mk ch o m s, tok, c => .mk (updChild tok c ch) o m s

/-- Functional counterpart of mut_owc_node followed by in-place mutation: the
single-wildcard child becomes the given node (created if it was absent). -/
def Node.setOnode : Node V → Node V → Node V
  | .mk ch _ m s, c => .mk ch (some c) m s

/-- Single-wildcard expansion step of find and exist (src/lib.rs lines 80-90 and
213-221): for one frontier node, the wildcard child first and then every
literal child. -/
def Node.owcExpand (n : Node V) : List (Node V) :=
  n.onode.toList ++ n.children.map (fun p => p.2)

mutual

/-- Subtree value collection performed by the while loop at the end of
Trie::find (src/lib.rs lines 107-124) when a multi-wildcard was seen: each
node contributes its terminal values then its multi-wildcard values, and the
wildcard child and every literal child are visited as well. The Rust loop is
breadth-first; this recursion is depth-first, visiting the same nodes with the
same per-node contribution. -/
def Node.collectDeep : Node V → List V
  | .mk children onode m v =>
      v ++ m ++ (match onode with | some c => Node.collectDeep c | none => []) ++
      collectChildren children
termination_by n => sizeOf n
decreasing_by
  all_goals simp_wf
  all_goals omega

/-- Helper of Node.collectDeep: collection over the literal children list. -/
def collectChildren : List (String × Node V) → List V
  | [] => []
  | (_k, c) :: rest => Node.collectDeep c ++ collectChildren rest
termination_by l => sizeOf l
decreasing_by
  all_goals simp_wf
  all_goals omega

end

mutual

/-- Subtree emptiness scan performed by the while loop at the end of
Trie::exist (src/lib.rs lines 237-254): true exactly when some node of the
subtree (through the wildcard child and the literal children) has a non-empty
terminal or multi-wildcard value set. -/
def Node.hasDeep : Node V → Bool
  | .mk children onode m v =>
      !v.isEmpty || !m.isEmpty ||
      (match onode with | some c => Node.hasDeep c | none => false) ||
      anyChildren children
termination_by n => sizeOf n
decreasing_by
  all_goals simp_wf
  all_goals omega

/-- Helper of Node.hasDeep: scan over the literal children list. -/
def anyChildren : List (String × Node V) → Bool
  | [] => false
  | (_k, c) :: rest => Node.hasDeep c || anyChildren rest
termination_by l => sizeOf l
decreasing_by
  all_goals simp_wf
  all_goals omega

end

/-- Rust str::split on a separator char, over the character list of the key:
always returns at least one segment, and adjacent separators or a trailing
separator produce empty segments. -/
def splitChars (sc : Char) : List Char → List (List Char)
  | [] => [[]]
  | c :: cs =>
      if c = sc then [] :: splitChars sc cs
      else
        match splitChars sc cs with
        | t :: ts => (c :: t) :: ts
        | [] => [[c]]

/-- The token strings of a key: the segments of the key split on the separator
char, as in key.split(sc) in src/lib.rs. -/
def tokensOf (sc : Char) (key : String) : List String :=
  (splitChars sc key.data).map (fun l => String.mk l)

/-- Trie::tokens_from_key (src/lib.rs lines 33-39): an empty key is an
EmptyToken error, otherwise the key is split on the separator char. -/
def tokensFromKey (key : String) (sc : Char) : Except Error (List String) :=
  if key = "" then .error (.EmptyToken key) else .ok (tokensOf sc key)

/-- Trie::check_token (src/lib.rs lines 310-320): an empty token is an
EmptyToken error; any token seen after the multi-wildcard token is a
TokenAfterMwc error. -/
def checkToken (token key : String) (hasmwc : Bool) : Except Error Unit :=
  if token = "" then .error (.EmptyToken key)
  else if hasmwc then .error (.TokenAfterMwc key)
  else .ok ()

/-- The token fold of Trie::find (src/lib.rs lines 59-124) restructured as a
recursion on the token list, returning the whole collected value list: each
step first validates the token, skips everything when the frontier is empty,
otherwise prepends the multi-wildcard values of the frontier and advances the
frontier (wildcard-child plus all children for the one-wildcard token, frontier
unchanged with hasmwc set for the multi-wildcard token, the exact literal
child otherwise); after the last token the terminal values of the frontier are
collected, the whole remaining subtrees when a multi-wildcard was seen. -/
def findGo (owc mwc key : String) : Bool → List (Node V) → List String → Except Error (List V)
  | hasmwc, nodes, [] =>
      .ok (if hasmwc then joinMap Node.collectDeep nodes else joinMap Node.valueSet nodes)
  | hasmwc, nodes, t :: ts =>
      match checkToken t key hasmwc with
      | .error e => .error e
      | .ok _ =>
        if nodes.isEmpty then findGo owc mwc key hasmwc nodes ts
        else
          let contrib := joinMap Node.mValueSet nodes
          if t = owc then
            match findGo owc mwc key hasmwc (joinMap Node.owcExpand nodes) ts with
            | .error e => .error e
            | .ok rest => .ok (contrib ++ rest)
          else if t = mwc then
            match findGo owc mwc key true nodes ts with
            | .error e => .error e
            | .ok rest => .ok (contrib ++ rest)
          else
            match findGo owc mwc key hasmwc (nodes.filterMap (Node.getChild t)) ts with
            | .error e => .error e
            | .ok rest => .ok (contrib ++ rest)

/-- The token loop of Trie::exist (src/lib.rs lines 194-259) as a recursion on
the token list: per token it validates, returns false on an empty frontier,
returns true when some frontier node has multi-wildcard values, and otherwise
advances the frontier (multi-wildcard marker checked before the one-wildcard
marker, as in the source); after the last token it reports whether some
frontier node has terminal values, or, when a multi-wildcard was seen, whether
some node of the remaining subtrees has any values. -/
def existGo (owc mwc key : String) : Bool → List (Node V) → List String → Except Error Bool
  | hasmwc, nodes, [] =>
      .ok (nodes.any (fun n => !n.valueSet.isEmpty) || (hasmwc && nodes.any Node.hasDeep))
  | hasmwc, nodes, t :: ts =>
      match checkToken t key hasmwc with
      | .error e => .error e
      | .ok _ =>
        if nodes.isEmpty then .ok false
        else if nodes.any (fun n => !n.mValueSet.isEmpty) then .ok true
        else if t = mwc then existGo owc mwc key true nodes ts
        else if t = owc then existGo owc mwc key hasmwc (joinMap Node.owcExpand nodes) ts
        else existGo owc mwc key hasmwc (nodes.filterMap (Node.getChild t)) ts

/-- The token fold of Trie::must_find_mut_node followed by the value insertion
of Trie::insert (src/lib.rs lines 43-48 and 263-282), as a recursion that
rebuilds the mutated path: the multi-wildcard marker keeps the current node
and records hasmwc, the one-wildcard marker descends into the wildcard child
creating it when absent, a literal descends into the named child creating it
when absent; at the end the value joins the multi-wildcard set when hasmwc was
seen, the terminal set otherwise (the newly-added Boolean of Node::add is
discarded, as in the source). A validation error aborts but the mutations
already made stay, as they do through the Rust mutable borrow. -/
def insertGo [DecidableEq V] (owc mwc key : String) (value : V) :
    Bool → List String → Node V → Node V × Except Error Unit
  | hasmwc, [], n =>
      if hasmwc then ((Node.mwcAdd value n).2, .ok ()) else ((Node.add value n).2, .ok ())
  | hasmwc, t :: ts, n =>
      match checkToken t key hasmwc with
      | .error e => (n, .error e)
      | .ok _ =>
        if t = mwc then insertGo owc mwc key value true ts n
        else if t = owc then
          let r := insertGo owc mwc key value hasmwc ts (n.onode.getD Node.empty)
          (n.setOnode r.1, r.2)
        else
          let r := insertGo owc mwc key value hasmwc ts ((n.getChild t).getD Node.empty)
          (n.setChild t r.1, r.2)

/-- Validation of the tokens remaining after Trie::find_mut_node has lost the
node (the Option became None): the fold keeps calling check_token with the
hasmwc flag frozen, since the flag is only updated inside the and_then
closure. -/
def checkRest (key : String) (hasmwc : Bool) : List String → Except Error Unit
  | [] => .ok ()
  | t :: ts =>
      match checkToken t key hasmwc with
      | .error e => .error e
      | .ok _ => checkRest key hasmwc ts

/-- Trie::remove via Trie::find_mut_node (src/lib.rs lines 132-144 and
285-308): navigation with exact-path addressing; the multi-wildcard marker
keeps the current node and records hasmwc, the one-wildcard marker descends
into the wildcard child creating it when absent (mut_owc_node), a literal
descends into the named child or loses the node, after which only validation
continues and the result is false; at the end the value is removed from the
multi-wildcard set when hasmwc was seen, the terminal set otherwise, returning
whether it was present. -/
def removeGo [DecidableEq V] (owc mwc key : String) (value : V) :
    Bool → List String → Node V → Node V × Except Error Bool
  | hasmwc, [], n =>
      if hasmwc then
        let r := Node.mwcRemove value n
        (r.2, .ok r.1)
      else
        let r := Node.removeV value n
        (r.2, .ok r.1)
  | hasmwc, t :: ts, n =>
      match checkToken t key hasmwc with
      | .error e => (n, .error e)
      | .ok _ =>
        if t = mwc then removeGo owc mwc key value true ts n
        else if t = owc then
          let r := removeGo owc mwc key value hasmwc ts (n.onode.getD Node.empty)
          (n.setOnode r.1, r.2)
        else
          match n.getChild t with
          | some c =>
              let r := removeGo owc mwc key value hasmwc ts c
              (n.setChild t r.1, r.2)
          | none =>
              (n, (checkRest key hasmwc ts).map (fun _ => false))

/-- Trie::remove_all via Trie::find_mut_node (src/lib.rs lines 147-159 and
285-308): same navigation as removeGo; at the end the multi-wildcard set is
cleared when hasmwc was seen, the terminal set otherwise, returning whether it
was non-empty. -/
def removeAllGo [DecidableEq V] (owc mwc key : String) :
    Bool → List String → Node V → Node V × Except Error Bool
  | hasmwc, [], n =>
      if hasmwc then
        let r := Node.mwcRemoveAll n
        (r.2, .ok r.1)
      else
        let r := Node.removeAllV n
        (r.2, .ok r.1)
  | hasmwc, t :: ts, n =>
      match checkToken t key hasmwc with
      | .error e => (n, .error e)
      | .ok _ =>
        if t = mwc then removeAllGo owc mwc key true ts n
        else if t = owc then
          let r := removeAllGo owc mwc key hasmwc ts (n.onode.getD Node.empty)
          (n.setOnode r.1, r.2)
        else
          match n.getChild t with
          | some c =>
              let r := removeAllGo owc mwc key hasmwc ts c
              (n.setChild t r.1, r.2)
          | none =>
              (n, (checkRest key hasmwc ts).map (fun _ => false))

/-- Trie from src/lib.rs: root node, separator char, one-token wildcard string,
multi-token wildcard string. -/
structure Trie (V : Type) : Type where
  root : Node V
  sc : Char
  owc : String
  mwc : String

/-- Trie::new: default root with the given configuration. -/
def Trie.new (sc : Char) (owc mwc : String) : Trie V :=
  ⟨Node.empty, sc, owc, mwc⟩

/-- Trie::find (src/lib.rs lines 51-128). -/
def Trie.find (t : Trie V) (key : String) : Except Error (List V) :=
  match tokensFromKey key t.sc with
  | .error e => .error e
  | .ok toks => findGo t.owc t.mwc key false [t.root] toks

/-- Trie::exist (src/lib.rs lines 188-260). -/
def Trie.exist (t : Trie V) (key : String) : Except Error Bool :=
  match tokensFromKey key t.sc with
  | .error e => .error e
  | .ok toks => existGo t.owc t.mwc key false [t.root] toks

/-- Trie::insert (src/lib.rs lines 43-48): returns the mutated trie and the
unit success of the Rust Result<()>. -/
def Trie.insert [DecidableEq V] (t : Trie V) (key : String) (value : V) :
    Trie V × Except Error Unit :=
  match tokensFromKey key t.sc with
  | .error e => (t, .error e)
  | .ok toks =>
      let r := insertGo t.owc t.mwc key value false toks t.root
      (⟨r.1, t.sc, t.owc, t.mwc⟩, r.2)

/-- Trie::remove (src/lib.rs lines 132-144): returns the mutated trie and
whether the value was present in the addressed set. -/
def Trie.remove [DecidableEq V] (t : Trie V) (key : String) (value : V) :
    Trie V × Except Error Bool :=
  match tokensFromKey key t.sc with
  | .error e => (t, .error e)
  | .ok toks =>
      let r := removeGo t.owc t.mwc key value false toks t.root
      (⟨r.1, t.sc, t.owc, t.mwc⟩, r.2)

/-- Trie::remove_all (src/lib.rs lines 147-159): returns the mutated trie and
whether the addressed set was non-empty. -/
def Trie.removeAll [DecidableEq V] (t : Trie V) (key : String) :
    Trie V × Except Error Bool :=
  match tokensFromKey key t.sc with
  | .error e => (t, .error e)
  | .ok toks =>
      let r := removeAllGo t.owc t.mwc key false toks t.root
      (⟨r.1, t.sc, t.owc, t.mwc⟩, r.2)

/-- Token from src/token.rs: a normal literal segment, the wildcard matching a
single token, or the wildcard matching one or more trailing tokens. -/
inductive Token : Type where
  | Normal (s : String)
  | OneWildcard
  | MultiWildcard
deriving DecidableEq

/-- Parse error from src/token.rs. -/
inductive CommonTokenError : Type where
  | MultiWildcardNotAtEnd
deriving DecidableEq

/-- The try_fold of CommonTokenParser::parse_tokens (src/token.rs lines
105-123): classifies each segment, failing when any segment follows a
multi-wildcard segment; the one-wildcard marker is tested before the
multi-wildcard marker, as in the source. -/
def parseTokensGo (owc mwc : String) : List String → List Token → Bool →
    Except CommonTokenError (List Token)
  | [], acc, _hasMwc => .ok acc
  | s :: rest, acc, hasMwc =>
      if hasMwc then .error .MultiWildcardNotAtEnd
      else if s = owc then parseTokensGo owc mwc rest (acc ++ [.OneWildcard]) false
      else if s = mwc then parseTokensGo owc mwc rest (acc ++ [.MultiWildcard]) true
      else parseTokensGo owc mwc rest (acc ++ [.Normal s]) false

/-- CommonTokenParser::parse_tokens (src/token.rs lines 105-123): splits the
source on the separator char and classifies each segment; an empty source or
empty segment yields Normal of the empty string. -/
def parse_tokens (sc : Char) (owc mwc : String) (source : String) :
    Except CommonTokenError (List Token) :=
  parseTokensGo owc mwc (tokensOf sc source) [] false

/-- Per-segment classification used by parse_tokens, for stating what a
successful parse returns. -/
def classifyToken (owc mwc : String) (s : String) : Token :=
  if s = owc then .OneWildcard else if s = mwc then .MultiWildcard else .Normal s

/-- Descendant relation on trie nodes: reflexive, and closed under stepping
into the wildcard child or into any literal child. It describes the subtree
walked by the final loops of find and exist once a multi-wildcard was seen. -/
inductive Node.Desc : Node V → Node V → Prop where
  | refl (n : Node V) : Node.Desc n n
  | onode {n c k : Node V} : n.onode = some c → Node.Desc c k → Node.Desc n k
  | child {n k : Node V} {s : String} {c : Node V} :
      (s, c) ∈ n.children → Node.Desc c k → Node.Desc n k

/-- Modelled from the spec: exact-path addressing of remove and remove_all
(spec section 4.5) — a literal requires an existing literal child and a
one-wildcard marker requires an existing wildcard child, otherwise the
operation reports not found; a multi-wildcard marker redirects to the
multi-wildcard set of the current node; at the end the addressed set is the
multi-wildcard set when a multi-wildcard was seen, the terminal set
otherwise. The multi-wildcard marker is tested first, as the trie navigation
in the source does. -/
def specResolve (owc mwc : String) : Bool → List String → Node V → Option (List V)
  | hasmwc, [], n => some (if hasmwc then n.mValueSet else n.valueSet)
  | hasmwc, t :: ts, n =>
      if t = mwc then specResolve owc mwc true ts n
      else if t = owc then
        match n.onode with
        | some c => specResolve owc mwc hasmwc ts c
        | none => none
      else
        match n.getChild t with
        | some c => specResolve owc mwc hasmwc ts c
        | none => none

/-- Modelled from the spec: the set addressed by a removal pattern, or none
when the exact path does not exist. -/
def specTarget (t : Trie V) (key : String) : Option (List V) :=
  specResolve t.owc t.mwc false (tokensOf t.sc key) t.root

/-- Modelled from the spec: the cold recomputation of a query (spec section 8,
cache coherence) — the frontier walk over the current trie with no cache
consulted. The source trie keeps no cache at all, so this is exactly the walk
Trie::find performs on every call. -/
def coldFind (t : Trie V) (key : String) : Except Error (List V) :=
  match tokensFromKey key t.sc with
  | .error e => .error e
  | .ok toks => findGo t.owc t.mwc key false [t.root] toks

/-- One API operation of the trie, for stating properties of operation
sequences. -/
inductive Op (V : Type) : Type where
  | insertOp (key : String) (value : V)
  | removeOp (key : String) (value : V)
  | removeAllOp (key : String)
  | findOp (key : String)

/-- State transition of one operation: the three mutating operations keep
their possibly mutated trie; find borrows the trie immutably and leaves the
state unchanged. -/
def applyOp [DecidableEq V] (t : Trie V) : Op V → Trie V
  | .insertOp key v => (t.insert key v).1
  | .removeOp key v => (t.remove key v).1
  | .removeAllOp key => (t.removeAll key).1
  | .findOp _ => t

/-- State after a sequence of operations. -/
def runOps [DecidableEq V] (t : Trie V) : List (Op V) → Trie V
  | [] => t
  | op :: ops => runOps (applyOp t op) ops

/-! Helper lemmas about the embedded containers. -/

@[simp] theorem children_mk (ch : List (String × Node V)) (o : Option (Node V)) (m v : List V) :
    (Node.mk ch o m v).children = ch := rfl

@[simp] theorem onode_mk (ch : List (String × Node V)) (o : Option (Node V)) (m v : List V) :
    (Node.mk ch o m v).onode = o := rfl

@[simp] theorem mValueSet_mk (ch : List (String × Node V)) (o : Option (Node V)) (m v : List V) :
    (Node.mk ch o m v).mValueSet = m := rfl

@[simp] theorem valueSet_mk (ch : List (String × Node V)) (o : Option (Node V)) (m v : List V) :
    (Node.mk ch o m v).valueSet = v := rfl

@[simp] theorem joinMap_nil {α β : Type} (f : α → List β) : joinMap f [] = [] := rfl

@[simp] theorem joinMap_cons {α β : Type} (f : α → List β) (a : α) (l : List α) :
    joinMap f (a :: l) = f a ++ joinMap f l := rfl

theorem mem_joinMap {α β : Type} {f : α → List β} {b : β} {l : List α} :
    b ∈ joinMap f l ↔ ∃ a ∈ l, b ∈ f a := by
  induction l with
  | nil => simp
  | cons a l ih => simp [ih]

theorem not_isEmpty_joinMap {α β : Type} (f : α → List β) (l : List α) :
    (!(joinMap f l).isEmpty) = l.any (fun a => !(f a).isEmpty) := by
  induction l with
  | nil => simp
  | cons a l ih =>
      cases hfa : f a with
      | nil => simp [hfa, ih]
      | cons b bs => simp [hfa]

theorem joinMap_eq_nil {α β : Type} {f : α → List β} {l : List α} :
    joinMap f l = [] ↔ ∀ a ∈ l, f a = [] := by
  induction l with
  | nil => simp
  | cons a l ih => simp [List.append_eq_nil, ih]

theorem mem_setInsert_self [DecidableEq V] (v : V) (s : List V) : v ∈ setInsert v s := by
  unfold setInsert
  by_cases h : v ∈ s <;> simp [h]

theorem setInsert_of_mem [DecidableEq V] {v : V} {s : List V} (h : v ∈ s) :
    setInsert v s = s := by
  simp [setInsert, h]

@[simp] theorem lookupChild_updChild_self (tok : String) (c : Node V)
    (l : List (String × Node V)) : lookupChild tok (updChild tok c l) = some c := by
  induction l with
  | nil => simp [updChild, lookupChild]
  | cons p l ih =>
      obtain ⟨k, c0⟩ := p
      by_cases h : k = tok <;> simp [updChild, lookupChild, h, ih]

theorem updChild_of_lookup [DecidableEq V] {tok : String} {c : Node V}
    {l : List (String × Node V)} (h : lookupChild tok l = some c) :
    updChild tok c l = l := by
  induction l with
  | nil => simp [lookupChild] at h
  | cons p l ih =>
      obtain ⟨k, c0⟩ := p
      by_cases hk : k = tok
      · subst hk
        simp [lookupChild] at h
        simp [updChild, h]
      · simp [lookupChild, hk] at h
        simp [updChild, hk, ih h]

theorem updChild_updChild (tok : String) (c c0 : Node V) (l : List (String × Node V)) :
    updChild tok c (updChild tok c0 l) = updChild tok c l := by
  induction l with
  | nil => simp [updChild]
  | cons p l ih =>
      obtain ⟨k, c1⟩ := p
      by_cases h : k = tok <;> simp [updChild, h, ih]

@[simp] theorem getChild_setChild_self (n : Node V) (tok : String) (c : Node V) :
    (n.setChild tok c).getChild tok = some c := by
  cases n
  simp [Node.setChild, Node.getChild]

theorem setChild_setChild (n : Node V) (tok : String) (c c0 : Node V) :
    (n.setChild tok c0).setChild tok c = n.setChild tok c := by
  cases n
  simp [Node.setChild, updChild_updChild]

theorem setChild_of_getChild [DecidableEq V] {n : Node V} {tok : String} {c : Node V}
    (h : n.getChild tok = some c) : n.setChild tok c = n := by
  cases n
  simp only [Node.getChild, children_mk] at h
  simp [Node.setChild, updChild_of_lookup h]

@[simp] theorem onode_setOnode (n : Node V) (c : Node V) : (n.setOnode c).onode = some c := by
  cases n
  simp [Node.setOnode]

theorem setOnode_of_onode {n : Node V} {c : Node V} (h : n.onode = some c) :
    n.setOnode c = n := by
  cases n
  simp only [onode_mk] at h
  simp [Node.setOnode, h]

theorem setOnode_setOnode (n : Node V) (c c0 : Node V) :
    (n.setOnode c0).setOnode c = n.setOnode c := by
  cases n
  simp [Node.setOnode]

/-! SizeOf facts used for the subtree inductions. -/

theorem sizeOf_pair_mem {p : String × Node V} {l : List (String × Node V)} (h : p ∈ l) :
    sizeOf p < sizeOf l := List.sizeOf_lt_of_mem h

theorem sizeOf_child_lt {n : Node V} {s : String} {c : Node V}
    (h : (s, c) ∈ n.children) : sizeOf c < sizeOf n := by
  cases n with
  | mk ch o m v =>
      simp only [children_mk] at h
      have h1 : sizeOf (s, c) < sizeOf ch := List.sizeOf_lt_of_mem h
      simp only [Prod.mk.sizeOf_spec] at h1
      simp only [Node.mk.sizeOf_spec]
      omega

theorem sizeOf_onode_lt {n : Node V} {c : Node V} (h : n.onode = some c) :
    sizeOf c < sizeOf n := by
  cases n with
  | mk ch o m v =>
      simp only [onode_mk] at h
      subst h
      simp only [Node.mk.sizeOf_spec, Option.some.sizeOf_spec]
      omega

/-! Equations and characterizations of the subtree walks. -/

theorem collectDeep_mk (ch : List (String × Node V)) (o : Option (Node V)) (m v : List V) :
    (Node.mk ch o m v).collectDeep =
      v ++ m ++ (match o with | some c => c.collectDeep | none => []) ++ collectChildren ch := by
  rw [Node.collectDeep.eq_def]

@[simp] theorem collectChildren_nil : collectChildren ([] : List (String × Node V)) = [] := by
  rw [collectChildren]

@[simp] theorem collectChildren_cons (k : String) (c : Node V) (l : List (String × Node V)) :
    collectChildren ((k, c) :: l) = c.collectDeep ++ collectChildren l := by
  rw [collectChildren]

theorem hasDeep_mk (ch : List (String × Node V)) (o : Option (Node V)) (m v : List V) :
    (Node.mk ch o m v).hasDeep =
      (!v.isEmpty || !m.isEmpty ||
        (match o with | some c => c.hasDeep | none => false) || anyChildren ch) := by
  rw [Node.hasDeep.eq_def]

@[simp] theorem anyChildren_nil : anyChildren ([] : List (String × Node V)) = false := by
  rw [anyChildren]

@[simp] theorem anyChildren_cons (k : String) (c : Node V) (l : List (String × Node V)) :
    anyChildren ((k, c) :: l) = (c.hasDeep || anyChildren l) := by
  rw [anyChildren]

@[simp] theorem collectDeep_empty : (Node.empty : Node V).collectDeep = [] := by
  rw [Node.empty, collectDeep_mk]
  simp

theorem anyChildren_iff_of (ch : List (String × Node V))
    (h : ∀ p ∈ ch, (Node.hasDeep p.2 = true ↔ Node.collectDeep p.2 ≠ [])) :
    anyChildren ch = true ↔ collectChildren ch ≠ [] := by
  induction ch with
  | nil => simp
  | cons p l ih =>
      obtain ⟨k, c⟩ := p
      have hc := h (k, c) (by simp)
      have hl := ih (fun q hq => h q (by simp [hq]))
      simp only [anyChildren_cons, collectChildren_cons, Bool.or_eq_true, hc, hl,
        ne_eq, List.append_eq_nil]
      tauto

theorem hasDeep_iff_aux :
    ∀ (k : Nat) (n : Node V), sizeOf n < k → (n.hasDeep = true ↔ n.collectDeep ≠ []) := by
  intro k
  induction k with
  | zero => intro n h; omega
  | succ k ih =>
      intro n hn
      cases n with
      | mk ch o m v =>
          have hch : ∀ p ∈ ch, (Node.hasDeep p.2 = true ↔ Node.collectDeep p.2 ≠ []) := by
            intro p hp
            obtain ⟨s, c⟩ := p
            have : sizeOf c < sizeOf (Node.mk ch o m v) := sizeOf_child_lt (by simpa using hp)
            exact ih c (by omega)
          have hcs := anyChildren_iff_of ch hch
          rw [hasDeep_mk, collectDeep_mk]
          cases o with
          | none =>
              simp only [Bool.or_eq_true, hcs, ne_eq, List.append_eq_nil]
              simp [List.isEmpty_iff]
              tauto
          | some c =>
              have hoc : sizeOf c < sizeOf (Node.mk ch (some c) m v) :=
                sizeOf_onode_lt (by simp)
              have hco := ih c (by omega)
              simp only [Bool.or_eq_true, hcs, hco, ne_eq, List.append_eq_nil]
              simp [List.isEmpty_iff]
              tauto

theorem hasDeep_iff (n : Node V) : n.hasDeep = true ↔ n.collectDeep ≠ [] :=
  hasDeep_iff_aux (sizeOf n + 1) n (by omega)

theorem hasDeep_of_valueSet {n : Node V} (h : n.valueSet ≠ []) : n.hasDeep = true := by
  cases n with
  | mk ch o m v =>
      rw [hasDeep_mk]
      simp only [valueSet_mk] at h
      simp [List.isEmpty_iff, h]

theorem mem_collectChildren {w : V} {ch : List (String × Node V)} :
    w ∈ collectChildren ch ↔ ∃ s c, (s, c) ∈ ch ∧ w ∈ c.collectDeep := by
  induction ch with
  | nil => simp
  | cons p l ih =>
      obtain ⟨k, c⟩ := p
      simp only [collectChildren_cons, List.mem_append, ih, List.mem_cons]
      constructor
      · rintro (hw | ⟨s, c1, hm, hw⟩)
        · exact ⟨k, c, Or.inl rfl, hw⟩
        · exact ⟨s, c1, Or.inr hm, hw⟩
      · rintro ⟨s, c1, hm | hm, hw⟩
        · cases hm; exact Or.inl hw
        · exact Or.inr ⟨s, c1, hm, hw⟩

theorem mem_collectDeep_of_desc {n d : Node V} (hd : Node.Desc n d) :
    ∀ {w : V}, (w ∈ d.valueSet ∨ w ∈ d.mValueSet) → w ∈ n.collectDeep := by
  induction hd with
  | refl n =>
      intro w hw
      cases n with
      | mk ch o m v =>
          rw [collectDeep_mk]
          simp only [valueSet_mk, mValueSet_mk] at hw
          rcases hw with hw | hw <;> simp [hw]
  | onode ho _hd ih =>
      rename_i n c k
      intro w hw
      cases n with
      | mk ch o m v =>
          rw [collectDeep_mk]
          simp only [onode_mk] at ho
          subst ho
          simp [ih hw]
  | child hm _hd ih =>
      rename_i n k s c
      intro w hw
      cases n with
      | mk ch o m v =>
          rw [collectDeep_mk]
          simp only [children_mk] at hm
          have : w ∈ collectChildren ch := mem_collectChildren.mpr ⟨s, c, hm, ih hw⟩
          simp [this]

theorem mem_collectDeep_aux :
    ∀ (k : Nat) (n : Node V), sizeOf n < k → ∀ {w : V}, w ∈ n.collectDeep →
      ∃ d, Node.Desc n d ∧ (w ∈ d.valueSet ∨ w ∈ d.mValueSet) := by
  intro k
  induction k with
  | zero => intro n h; omega
  | succ k ih =>
      intro n hn w hw
      cases n with
      | mk ch o m v =>
          rw [collectDeep_mk] at hw
          simp only [List.mem_append] at hw
          rcases hw with ((hw | hw) | hw) | hw
          · exact ⟨Node.mk ch o m v, Node.Desc.refl _, Or.inl (by simpa using hw)⟩
          · exact ⟨Node.mk ch o m v, Node.Desc.refl _, Or.inr (by simpa using hw)⟩
          · cases o with
            | none => simp at hw
            | some c =>
                have hoc : sizeOf c < sizeOf (Node.mk ch (some c) m v) :=
                  sizeOf_onode_lt (by simp)
                obtain ⟨d, hdesc, hval⟩ := ih c (by omega) hw
                exact ⟨d, Node.Desc.onode (by simp) hdesc, hval⟩
          · obtain ⟨s, c, hm, hw⟩ := mem_collectChildren.mp hw
            have hcc : sizeOf c < sizeOf (Node.mk ch o m v) :=
              sizeOf_child_lt (by simpa using hm)
            obtain ⟨d, hdesc, hval⟩ := ih c (by omega) hw
            exact ⟨d, Node.Desc.child (by simpa using hm) hdesc, hval⟩

theorem mem_collectDeep_iff (n : Node V) (w : V) :
    w ∈ n.collectDeep ↔ ∃ d, Node.Desc n d ∧ (w ∈ d.valueSet ∨ w ∈ d.mValueSet) := by
  constructor
  · exact fun h => mem_collectDeep_aux (sizeOf n + 1) n (by omega) h
  · rintro ⟨d, hdesc, hval⟩
    exact mem_collectDeep_of_desc hdesc hval

/-! Facts about token validation and the find walk. -/

theorem checkToken_ok_iff {t key : String} {hm : Bool} :
    checkToken t key hm = .ok () ↔ (t ≠ "" ∧ hm = false) := by
  unfold checkToken
  by_cases h1 : t = "" <;> cases hm <;> simp [h1]

theorem findGo_nil_nodes (owc mwc key : String) :
    ∀ (ts : List String) (hasmwc : Bool) (l : List V),
      findGo owc mwc key hasmwc [] ts = .ok l → l = [] := by
  intro ts
  induction ts with
  | nil =>
      intro hasmwc l h
      simp only [findGo] at h
      cases hasmwc <;> simp_all
  | cons t ts ih =>
      intro hasmwc l h
      simp only [findGo] at h
      cases hct : checkToken t key hasmwc with
      | error e => rw [hct] at h; cases h
      | ok u => rw [hct] at h; simp at h; exact ih hasmwc l h

theorem isEmpty_append {α : Type} (l r : List α) :
    (l ++ r).isEmpty = (l.isEmpty && r.isEmpty) := by
  cases l <;> simp

theorem hasDeep_eq_not_isEmpty (n : Node V) : n.hasDeep = !n.collectDeep.isEmpty := by
  cases hb : n.hasDeep with
  | true =>
      have := (hasDeep_iff n).mp hb
      simp [List.isEmpty_iff, this]
  | false =>
      have hnn : ¬ n.collectDeep ≠ [] := fun hne => by
        have h2 := (hasDeep_iff n).mpr hne
        rw [hb] at h2
        cases h2
      simp [List.isEmpty_iff, not_not.mp hnn]

theorem any_hasDeep_absorb (nodes : List (Node V)) :
    (nodes.any (fun n => !n.valueSet.isEmpty) || nodes.any Node.hasDeep) =
      nodes.any Node.hasDeep := by
  cases hv : nodes.any (fun n => !n.valueSet.isEmpty) with
  | false => simp
  | true =>
      simp only [List.any_eq_true] at hv
      obtain ⟨n, hn, hne⟩ := hv
      have : n.hasDeep = true := hasDeep_of_valueSet (by simpa [List.isEmpty_iff] using hne)
      have : nodes.any Node.hasDeep = true := List.any_eq_true.mpr ⟨n, hn, this⟩
      simp [this]

/-- Whenever the find walk succeeds, the exist walk from the same state succeeds
and returns exactly the non-emptiness of the find result, provided the two
wildcard markers are distinct (find tests the one-wildcard marker first while
exist tests the multi-wildcard marker first, so a shared marker text makes the
two walks take different branches). -/
theorem findGo_exist_agree [DecidableEq V] {owc mwc : String} (key : String) (hd : owc ≠ mwc) :
    ∀ (ts : List String) (hasmwc : Bool) (nodes : List (Node V)) (l : List V),
      findGo owc mwc key hasmwc nodes ts = .ok l →
      existGo owc mwc key hasmwc nodes ts = .ok (!l.isEmpty) := by
  intro ts
  induction ts with
  | nil =>
      intro hasmwc nodes l h
      cases hasmwc with
      | false =>
          simp only [findGo, Bool.false_eq_true, if_false, Except.ok.injEq] at h
          subst h
          simp only [existGo, Except.ok.injEq, Bool.false_and, Bool.or_false]
          rw [not_isEmpty_joinMap]
      | true =>
          simp only [findGo, if_true, Except.ok.injEq] at h
          subst h
          simp only [existGo, Except.ok.injEq, Bool.true_and]
          rw [not_isEmpty_joinMap]
          simp only [← hasDeep_eq_not_isEmpty]
          exact any_hasDeep_absorb nodes
  | cons t ts ih =>
      intro hasmwc nodes l h
      simp only [findGo] at h
      cases hct : checkToken t key hasmwc with
      | error e => rw [hct] at h; cases h
      | ok u =>
          rw [hct] at h
          simp only [existGo]
          rw [hct]
          cases hne : nodes.isEmpty with
          | true =>
              rw [hne] at h
              simp only [if_true] at h
              have hnil : nodes = [] := List.isEmpty_iff.mp hne
              rw [hnil] at h
              have := findGo_nil_nodes owc mwc key ts hasmwc l h
              subst this
              simp
          | false =>
              rw [hne] at h
              simp only [Bool.false_eq_true, if_false] at h ⊢
              cases hcontrib : (joinMap Node.mValueSet nodes).isEmpty with
              | false =>
                  have hany : nodes.any (fun n => !n.mValueSet.isEmpty) = true := by
                    rw [← not_isEmpty_joinMap, hcontrib]; rfl
                  rw [hany]
                  simp only [if_true]
                  by_cases hto : t = owc
                  · rw [if_pos hto] at h
                    cases hrec : findGo owc mwc key hasmwc (joinMap Node.owcExpand nodes) ts with
                    | error e => rw [hrec] at h; cases h
                    | ok rest =>
                        rw [hrec] at h
                        simp only [Except.ok.injEq] at h
                        subst h
                        simp [isEmpty_append, hcontrib]
                  · rw [if_neg hto] at h
                    by_cases htm : t = mwc
                    · rw [if_pos htm] at h
                      cases hrec : findGo owc mwc key true nodes ts with
                      | error e => rw [hrec] at h; cases h
                      | ok rest =>
                          rw [hrec] at h
                          simp only [Except.ok.injEq] at h
                          subst h
                          simp [isEmpty_append, hcontrib]
                    · rw [if_neg htm] at h
                      cases hrec : findGo owc mwc key hasmwc
                          (nodes.filterMap (Node.getChild t)) ts with
                      | error e => rw [hrec] at h; cases h
                      | ok rest =>
                          rw [hrec] at h
                          simp only [Except.ok.injEq] at h
                          subst h
                          simp [isEmpty_append, hcontrib]
              | true =>
                  have hany : nodes.any (fun n => !n.mValueSet.isEmpty) = false := by
                    rw [← not_isEmpty_joinMap, hcontrib]; rfl
                  rw [hany]
                  have hcnil : joinMap Node.mValueSet nodes = [] :=
                    List.isEmpty_iff.mp hcontrib
                  simp only [Bool.false_eq_true, if_false]
                  by_cases htm : t = mwc
                  · have hto : ¬ t = owc := fun hh => hd (hh ▸ htm ▸ rfl)
                    rw [if_neg hto, if_pos htm] at h
                    rw [if_pos htm]
                    cases hrec : findGo owc mwc key true nodes ts with
                    | error e => rw [hrec] at h; cases h
                    | ok rest =>
                        rw [hrec] at h
                        simp only [Except.ok.injEq] at h
                        subst h
                        rw [hcnil]
                        simpa using ih true nodes rest hrec
                  · rw [if_neg htm]
                    by_cases hto : t = owc
                    · rw [if_pos hto] at h
                      rw [if_pos hto]
                      cases hrec : findGo owc mwc key hasmwc (joinMap Node.owcExpand nodes) ts with
                      | error e => rw [hrec] at h; cases h
                      | ok rest =>
                          rw [hrec] at h
                          simp only [Except.ok.injEq] at h
                          subst h
                          rw [hcnil]
                          simpa using ih hasmwc (joinMap Node.owcExpand nodes) rest hrec
                    · rw [if_neg hto, if_neg htm] at h
                      rw [if_neg hto]
                      cases hrec : findGo owc mwc key hasmwc
                          (nodes.filterMap (Node.getChild t)) ts with
                      | error e => rw [hrec] at h; cases h
                      | ok rest =>
                          rw [hrec] at h
                          simp only [Except.ok.injEq] at h
                          subst h
                          rw [hcnil]
                          simpa using ih hasmwc (nodes.filterMap (Node.getChild t)) rest hrec

/-! Branch-unfolding equations for the walks, under explicit token hypotheses. -/

theorem findGo_lit {owc mwc key t : String} (ht1 : t ≠ "") (ht2 : t ≠ owc) (ht3 : t ≠ mwc)
    {nodes : List (Node V)} (hne : nodes.isEmpty = false) (ts : List String) :
    findGo owc mwc key false nodes (t :: ts) =
      (match findGo owc mwc key false (nodes.filterMap (Node.getChild t)) ts with
       | .error e => .error e
       | .ok rest => .ok (joinMap Node.mValueSet nodes ++ rest)) := by
  simp [findGo, checkToken, ht1, ht2, ht3, hne]

theorem findGo_owc {owc mwc key : String} (howc : owc ≠ "")
    {nodes : List (Node V)} (hne : nodes.isEmpty = false) (ts : List String) :
    findGo owc mwc key false nodes (owc :: ts) =
      (match findGo owc mwc key false (joinMap Node.owcExpand nodes) ts with
       | .error e => .error e
       | .ok rest => .ok (joinMap Node.mValueSet nodes ++ rest)) := by
  simp [findGo, checkToken, howc, hne]

theorem findGo_mwc {owc mwc key : String} (hmwc : mwc ≠ "") (hno : mwc ≠ owc)
    {nodes : List (Node V)} (hne : nodes.isEmpty = false) (ts : List String) :
    findGo owc mwc key false nodes (mwc :: ts) =
      (match findGo owc mwc key true nodes ts with
       | .error e => .error e
       | .ok rest => .ok (joinMap Node.mValueSet nodes ++ rest)) := by
  simp [findGo, checkToken, hmwc, hno, hne]

theorem insertGo_nil [DecidableEq V] (owc mwc key : String) (v : V) (n : Node V) :
    insertGo owc mwc key v false [] n = ((Node.add v n).2, .ok ()) := by
  simp [insertGo]

theorem insertGo_nil_mwc [DecidableEq V] (owc mwc key : String) (v : V) (n : Node V) :
    insertGo owc mwc key v true [] n = ((Node.mwcAdd v n).2, .ok ()) := by
  simp [insertGo]

theorem insertGo_lit [DecidableEq V] {owc mwc key t : String}
    (ht1 : t ≠ "") (ht2 : t ≠ owc) (ht3 : t ≠ mwc) (v : V) (ts : List String) (n : Node V) :
    insertGo owc mwc key v false (t :: ts) n =
      (n.setChild t (insertGo owc mwc key v false ts ((n.getChild t).getD Node.empty)).1,
       (insertGo owc mwc key v false ts ((n.getChild t).getD Node.empty)).2) := by
  simp [insertGo, checkToken, ht1, ht2, ht3]

theorem insertGo_owc [DecidableEq V] {owc mwc key : String} (howc : owc ≠ "") (hno : owc ≠ mwc)
    (v : V) (ts : List String) (n : Node V) :
    insertGo owc mwc key v false (owc :: ts) n =
      (n.setOnode (insertGo owc mwc key v false ts (n.onode.getD Node.empty)).1,
       (insertGo owc mwc key v false ts (n.onode.getD Node.empty)).2) := by
  simp [insertGo, checkToken, howc, hno]

theorem insertGo_mwc [DecidableEq V] {owc mwc key : String} (hmwc : mwc ≠ "")
    (v : V) (ts : List String) (n : Node V) :
    insertGo owc mwc key v false (mwc :: ts) n = insertGo owc mwc key v true ts n := by
  simp [insertGo, checkToken, hmwc]

/-! Insert followed by find on the same wildcard-free token path. -/

theorem insertGo_lit_find [DecidableEq V] (owc mwc key : String) :
    ∀ (ts : List String) (n : Node V) (v : V),
      (∀ tok ∈ ts, tok ≠ "" ∧ tok ≠ owc ∧ tok ≠ mwc) →
      (insertGo owc mwc key v false ts n).2 = .ok () ∧
      ∃ l, findGo owc mwc key false [(insertGo owc mwc key v false ts n).1] ts = .ok l ∧
        v ∈ l := by
  intro ts
  induction ts with
  | nil =>
      intro n v _h
      rw [insertGo_nil]
      refine ⟨rfl, (Node.add v n).2.valueSet ++ [], by simp [findGo, joinMap], ?_⟩
      cases n with
      | mk ch o m s => simp [Node.add, mem_setInsert_self]
  | cons t ts ih =>
      intro n v h
      obtain ⟨ht1, ht2, ht3⟩ := h t (by simp)
      have hrest : ∀ tok ∈ ts, tok ≠ "" ∧ tok ≠ owc ∧ tok ≠ mwc :=
        fun tok htok => h tok (List.mem_cons_of_mem t htok)
      obtain ⟨hins, l, hfind, hmem⟩ := ih ((n.getChild t).getD Node.empty) v hrest
      rw [insertGo_lit ht1 ht2 ht3]
      refine ⟨hins, ?_⟩
      rw [findGo_lit ht1 ht2 ht3 (by simp) ts]
      simp only [List.filterMap_cons, List.filterMap_nil, getChild_setChild_self]
      rw [hfind]
      exact ⟨_, rfl, by simp [hmem]⟩

/-! Idempotence of insertion along any token path. -/

theorem add_add [DecidableEq V] (v : V) (n : Node V) :
    (Node.add v (Node.add v n).2).2 = (Node.add v n).2 := by
  cases n with
  | mk ch o m s => simp [Node.add, setInsert_of_mem (mem_setInsert_self v s)]

theorem mwcAdd_mwcAdd [DecidableEq V] (v : V) (n : Node V) :
    (Node.mwcAdd v (Node.mwcAdd v n).2).2 = (Node.mwcAdd v n).2 := by
  cases n with
  | mk ch o m s => simp [Node.mwcAdd, setInsert_of_mem (mem_setInsert_self v m)]

theorem insertGo_idem [DecidableEq V] (owc mwc key : String) (v : V) :
    ∀ (ts : List String) (hasmwc : Bool) (n n1 : Node V),
      insertGo owc mwc key v hasmwc ts n = (n1, .ok ()) →
      insertGo owc mwc key v hasmwc ts n1 = (n1, .ok ()) := by
  intro ts
  induction ts with
  | nil =>
      intro hasmwc n n1 h
      cases hasmwc with
      | false =>
          rw [insertGo_nil] at h ⊢
          injection h with h1 h2
          rw [← h1, add_add]
      | true =>
          rw [insertGo_nil_mwc] at h ⊢
          injection h with h1 h2
          rw [← h1, mwcAdd_mwcAdd]
  | cons t ts ih =>
      intro hasmwc n n1 h
      have hct : checkToken t key hasmwc = .ok () := by
        cases hch : checkToken t key hasmwc with
        | error e =>
            rw [show insertGo owc mwc key v hasmwc (t :: ts) n = (n, .error e) from by
              simp [insertGo, hch]] at h
            injection h
        | ok u => cases u; rfl
      obtain ⟨ht1, ht2⟩ := checkToken_ok_iff.mp hct
      subst ht2
      by_cases htm : t = mwc
      · have hmw : mwc ≠ "" := htm ▸ ht1
        rw [htm] at h ⊢
        rw [insertGo_mwc hmw] at h ⊢
        exact ih true n n1 h
      · by_cases hto : t = owc
        · have howc : owc ≠ "" := hto ▸ ht1
          have hno : owc ≠ mwc := fun hh => htm (hto.trans hh)
          rw [hto] at h ⊢
          rw [insertGo_owc howc hno] at h
          injection h with h1 h2
          have hX : insertGo owc mwc key v false ts (n.onode.getD Node.empty) =
              ((insertGo owc mwc key v false ts (n.onode.getD Node.empty)).1, .ok ()) := by
            rw [← h2]
          have hIH := ih false (n.onode.getD Node.empty) _ hX
          rw [insertGo_owc howc hno, ← h1]
          simp only [onode_setOnode, Option.getD_some]
          rw [hIH, setOnode_setOnode]
        · rw [insertGo_lit ht1 hto htm] at h
          injection h with h1 h2
          have hX : insertGo owc mwc key v false ts ((n.getChild t).getD Node.empty) =
              ((insertGo owc mwc key v false ts ((n.getChild t).getD Node.empty)).1, .ok ()) := by
            rw [← h2]
          have hIH := ih false ((n.getChild t).getD Node.empty) _ hX
          rw [insertGo_lit ht1 hto htm, ← h1]
          simp only [getChild_setChild_self, Option.getD_some]
          rw [hIH, setChild_setChild]

/-! A failing validation leaves every stored value in place: the nodes created
before the error are empty, so the collected value sequence is unchanged. -/

theorem collectChildren_updChild_of_lookup {tok : String} {c c0 : Node V}
    {l : List (String × Node V)} (hl : lookupChild tok l = some c0)
    (hc : Node.collectDeep c = Node.collectDeep c0) :
    collectChildren (updChild tok c l) = collectChildren l := by
  induction l with
  | nil => simp [lookupChild] at hl
  | cons p l ih =>
      obtain ⟨k, c1⟩ := p
      by_cases hk : k = tok
      · simp only [lookupChild, hk, if_true] at hl
        simp only [updChild, hk, if_true, collectChildren_cons]
        cases hl
        rw [hc]
      · simp only [lookupChild, hk, if_false] at hl
        simp only [updChild, hk, if_false, collectChildren_cons]
        rw [ih hl]

theorem collectChildren_updChild_of_none {tok : String} {c : Node V}
    {l : List (String × Node V)} (hl : lookupChild tok l = none)
    (hc : Node.collectDeep c = []) :
    collectChildren (updChild tok c l) = collectChildren l := by
  induction l with
  | nil => simp [updChild, hc]
  | cons p l ih =>
      obtain ⟨k, c1⟩ := p
      by_cases hk : k = tok
      · simp [lookupChild, hk] at hl
      · simp only [lookupChild, hk, if_false] at hl
        simp only [updChild, hk, if_false, collectChildren_cons]
        rw [ih hl]

theorem collectDeep_setChild {n : Node V} {tok : String} {c : Node V}
    (h : ∀ c0, n.getChild tok = some c0 → Node.collectDeep c = Node.collectDeep c0)
    (h0 : n.getChild tok = none → Node.collectDeep c = []) :
    (n.setChild tok c).collectDeep = n.collectDeep := by
  cases n with
  | mk ch o m v =>
      simp only [Node.setChild]
      rw [collectDeep_mk, collectDeep_mk]
      cases hl : lookupChild tok ch with
      | some c0 =>
          rw [collectChildren_updChild_of_lookup hl (h c0 (by simpa [Node.getChild] using hl))]
      | none =>
          rw [collectChildren_updChild_of_none hl (h0 (by simpa [Node.getChild] using hl))]

theorem collectDeep_mk_some (ch : List (String × Node V)) (c : Node V) (m v : List V) :
    (Node.mk ch (some c) m v).collectDeep = v ++ m ++ c.collectDeep ++ collectChildren ch := by
  rw [Node.collectDeep.eq_def]

theorem collectDeep_mk_none (ch : List (String × Node V)) (m v : List V) :
    (Node.mk ch none m v).collectDeep = v ++ m ++ collectChildren ch := by
  rw [Node.collectDeep.eq_def]
  simp

theorem collectDeep_setOnode {n c : Node V}
    (h : ∀ c0, n.onode = some c0 → Node.collectDeep c = Node.collectDeep c0)
    (h0 : n.onode = none → Node.collectDeep c = []) :
    (n.setOnode c).collectDeep = n.collectDeep := by
  cases n with
  | mk ch o m v =>
      simp only [Node.setOnode]
      cases o with
      | some c0 => rw [collectDeep_mk_some, collectDeep_mk_some, h c0 rfl]
      | none =>
          rw [collectDeep_mk_some, collectDeep_mk_none, h0 rfl]
          simp

theorem insertGo_error_collect [DecidableEq V] (owc mwc key : String) (v : V) :
    ∀ (ts : List String) (hasmwc : Bool) (n n1 : Node V) (e : Error),
      insertGo owc mwc key v hasmwc ts n = (n1, .error e) →
      n1.collectDeep = n.collectDeep := by
  intro ts
  induction ts with
  | nil =>
      intro hasmwc n n1 e h
      cases hasmwc with
      | false => rw [insertGo_nil] at h; injection h with _h1 h2; cases h2
      | true => rw [insertGo_nil_mwc] at h; injection h with _h1 h2; cases h2
  | cons t ts ih =>
      intro hasmwc n n1 e h
      cases hch : checkToken t key hasmwc with
      | error e0 =>
          rw [show insertGo owc mwc key v hasmwc (t :: ts) n = (n, .error e0) from by
            simp [insertGo, hch]] at h
          injection h with h1 _h2
          rw [← h1]
      | ok u =>
          cases u
          obtain ⟨ht1, ht2⟩ := checkToken_ok_iff.mp hch
          subst ht2
          by_cases htm : t = mwc
          · have hmw : mwc ≠ "" := htm ▸ ht1
            rw [htm, insertGo_mwc hmw] at h
            exact ih true n n1 e h
          · by_cases hto : t = owc
            · have howc : owc ≠ "" := hto ▸ ht1
              have hno : owc ≠ mwc := fun hh => htm (hto.trans hh)
              rw [hto, insertGo_owc howc hno] at h
              injection h with h1 h2
              have hIH := ih false (n.onode.getD Node.empty) _ e
                (by rw [← h2])
              rw [← h1]
              refine collectDeep_setOnode ?_ ?_
              · intro c0 hc0
                rw [hIH, hc0, Option.getD_some]
              · intro hc0
                rw [hIH, hc0]
                simp
            · rw [insertGo_lit ht1 hto htm] at h
              injection h with h1 h2
              have hIH := ih false ((n.getChild t).getD Node.empty) _ e
                (by rw [← h2])
              rw [← h1]
              refine collectDeep_setChild ?_ ?_
              · intro c0 hc0
                rw [hIH, hc0, Option.getD_some]
              · intro hc0
                rw [hIH, hc0]
                simp

/-! Branch equations for the removal walks. -/

theorem removeGo_nil [DecidableEq V] (owc mwc key : String) (v : V) (n : Node V) :
    removeGo owc mwc key v false [] n = ((Node.removeV v n).2, .ok (Node.removeV v n).1) := by
  simp [removeGo]

theorem removeGo_nil_mwc [DecidableEq V] (owc mwc key : String) (v : V) (n : Node V) :
    removeGo owc mwc key v true [] n = ((Node.mwcRemove v n).2, .ok (Node.mwcRemove v n).1) := by
  simp [removeGo]

theorem removeGo_mwc [DecidableEq V] {owc mwc key : String} (hmwc : mwc ≠ "")
    (v : V) (ts : List String) (n : Node V) :
    removeGo owc mwc key v false (mwc :: ts) n = removeGo owc mwc key v true ts n := by
  simp [removeGo, checkToken, hmwc]

theorem removeGo_owc [DecidableEq V] {owc mwc key : String} (howc : owc ≠ "") (hno : owc ≠ mwc)
    (v : V) (ts : List String) (n : Node V) :
    removeGo owc mwc key v false (owc :: ts) n =
      (n.setOnode (removeGo owc mwc key v false ts (n.onode.getD Node.empty)).1,
       (removeGo owc mwc key v false ts (n.onode.getD Node.empty)).2) := by
  simp [removeGo, checkToken, howc, hno]

theorem removeGo_lit_some [DecidableEq V] {owc mwc key t : String}
    (ht1 : t ≠ "") (ht2 : t ≠ owc) (ht3 : t ≠ mwc) (v : V) (ts : List String)
    {n c : Node V} (hc : n.getChild t = some c) :
    removeGo owc mwc key v false (t :: ts) n =
      (n.setChild t (removeGo owc mwc key v false ts c).1,
       (removeGo owc mwc key v false ts c).2) := by
  simp [removeGo, checkToken, ht1, ht2, ht3, hc]

theorem removeGo_lit_none [DecidableEq V] {owc mwc key t : String}
    (ht1 : t ≠ "") (ht2 : t ≠ owc) (ht3 : t ≠ mwc) (v : V) (ts : List String)
    {n : Node V} (hc : n.getChild t = none) :
    removeGo owc mwc key v false (t :: ts) n =
      (n, (checkRest key false ts).map (fun _ => false)) := by
  simp [removeGo, checkToken, ht1, ht2, ht3, hc]

theorem removeAllGo_nil [DecidableEq V] (owc mwc key : String) (n : Node V) :
    removeAllGo owc mwc key false [] n = ((Node.removeAllV n).2, .ok (Node.removeAllV n).1) := by
  simp [removeAllGo]

theorem removeAllGo_nil_mwc [DecidableEq V] (owc mwc key : String) (n : Node V) :
    removeAllGo owc mwc key true [] n =
      ((Node.mwcRemoveAll n).2, .ok (Node.mwcRemoveAll n).1) := by
  simp [removeAllGo]

theorem removeAllGo_mwc [DecidableEq V] {owc mwc key : String} (hmwc : mwc ≠ "")
    (ts : List String) (n : Node V) :
    removeAllGo owc mwc key false (mwc :: ts) n = removeAllGo owc mwc key true ts n := by
  simp [removeAllGo, checkToken, hmwc]

theorem removeAllGo_owc [DecidableEq V] {owc mwc key : String} (howc : owc ≠ "")
    (hno : owc ≠ mwc) (ts : List String) (n : Node V) :
    removeAllGo owc mwc key false (owc :: ts) n =
      (n.setOnode (removeAllGo owc mwc key false ts (n.onode.getD Node.empty)).1,
       (removeAllGo owc mwc key false ts (n.onode.getD Node.empty)).2) := by
  simp [removeAllGo, checkToken, howc, hno]

theorem removeAllGo_lit_some [DecidableEq V] {owc mwc key t : String}
    (ht1 : t ≠ "") (ht2 : t ≠ owc) (ht3 : t ≠ mwc) (ts : List String)
    {n c : Node V} (hc : n.getChild t = some c) :
    removeAllGo owc mwc key false (t :: ts) n =
      (n.setChild t (removeAllGo owc mwc key false ts c).1,
       (removeAllGo owc mwc key false ts c).2) := by
  simp [removeAllGo, checkToken, ht1, ht2, ht3, hc]

theorem removeAllGo_lit_none [DecidableEq V] {owc mwc key t : String}
    (ht1 : t ≠ "") (ht2 : t ≠ owc) (ht3 : t ≠ mwc) (ts : List String)
    {n : Node V} (hc : n.getChild t = none) :
    removeAllGo owc mwc key false (t :: ts) n =
      (n, (checkRest key false ts).map (fun _ => false)) := by
  simp [removeAllGo, checkToken, ht1, ht2, ht3, hc]

/-! Removal on a node that was just created: always reports false. -/

theorem removeGo_empty_false [DecidableEq V] (owc mwc key : String) (v : V) :
    ∀ (ts : List String) (hasmwc : Bool) (n1 : Node V) (b : Bool),
      removeGo owc mwc key v hasmwc ts Node.empty = (n1, .ok b) → b = false := by
  intro ts
  induction ts with
  | nil =>
      intro hasmwc n1 b h
      cases hasmwc with
      | false =>
          rw [removeGo_nil] at h
          injection h with _h1 h2
          injection h2 with h3
          rw [← h3]
          simp [Node.empty, Node.removeV]
      | true =>
          rw [removeGo_nil_mwc] at h
          injection h with _h1 h2
          injection h2 with h3
          rw [← h3]
          simp [Node.empty, Node.mwcRemove]
  | cons t ts ih =>
      intro hasmwc n1 b h
      cases hch : checkToken t key hasmwc with
      | error e =>
          rw [show removeGo owc mwc key v hasmwc (t :: ts) Node.empty =
              (Node.empty, .error e) from by simp [removeGo, hch]] at h
          injection h with _h1 h2
          injection h2
      | ok u =>
          cases u
          obtain ⟨ht1, ht2⟩ := checkToken_ok_iff.mp hch
          subst ht2
          by_cases htm : t = mwc
          · have hmw : mwc ≠ "" := htm ▸ ht1
            rw [htm, removeGo_mwc hmw] at h
            exact ih true n1 b h
          · by_cases hto : t = owc
            · have howc : owc ≠ "" := hto ▸ ht1
              have hno : owc ≠ mwc := fun hh => htm (hto.trans hh)
              rw [hto, removeGo_owc howc hno] at h
              injection h with h1 h2
              have h2e : (removeGo owc mwc key v false ts Node.empty).2 = .ok b := h2
              have hrec : removeGo owc mwc key v false ts Node.empty =
                  ((removeGo owc mwc key v false ts Node.empty).1, .ok b) := by
                rw [← h2e]
              exact ih false _ b hrec
            · rw [removeGo_lit_none ht1 hto htm v ts
                (by simp [Node.getChild, Node.empty, lookupChild])] at h
              injection h with _h1 h2
              cases hcr : checkRest key false ts with
              | error e => rw [hcr] at h2; cases h2
              | ok u2 =>
                  rw [hcr] at h2
                  injection h2 with h3
                  rw [← h3]

/-! Removal reports exactly what the addressing of the spec resolves. -/

theorem removeGo_spec [DecidableEq V] (owc mwc key : String) (v : V) :
    ∀ (ts : List String) (hasmwc : Bool) (n n1 : Node V) (b : Bool),
      removeGo owc mwc key v hasmwc ts n = (n1, .ok b) →
      b = (match specResolve owc mwc hasmwc ts n with
           | some s => decide (v ∈ s)
           | none => false) := by
  intro ts
  induction ts with
  | nil =>
      intro hasmwc n n1 b h
      cases hasmwc with
      | false =>
          rw [removeGo_nil] at h
          injection h with _h1 h2
          injection h2 with h3
          rw [← h3]
          cases n with
          | mk ch o m s => simp [specResolve, Node.removeV]
      | true =>
          rw [removeGo_nil_mwc] at h
          injection h with _h1 h2
          injection h2 with h3
          rw [← h3]
          cases n with
          | mk ch o m s => simp [specResolve, Node.mwcRemove]
  | cons t ts ih =>
      intro hasmwc n n1 b h
      cases hch : checkToken t key hasmwc with
      | error e =>
          rw [show removeGo owc mwc key v hasmwc (t :: ts) n =
              (n, .error e) from by simp [removeGo, hch]] at h
          injection h with _h1 h2
          injection h2
      | ok u =>
          cases u
          obtain ⟨ht1, ht2⟩ := checkToken_ok_iff.mp hch
          subst ht2
          by_cases htm : t = mwc
          · have hmw : mwc ≠ "" := htm ▸ ht1
            rw [htm, removeGo_mwc hmw] at h
            rw [htm]
            simp only [specResolve, if_true]
            exact ih true n n1 b h
          · by_cases hto : t = owc
            · have howc : owc ≠ "" := hto ▸ ht1
              have hno : owc ≠ mwc := fun hh => htm (hto.trans hh)
              rw [hto, removeGo_owc howc hno] at h
              rw [hto]
              injection h with h1 h2
              cases ho : n.onode with
              | some c =>
                  have hrec : removeGo owc mwc key v false ts c =
                      ((removeGo owc mwc key v false ts (n.onode.getD Node.empty)).1, .ok b) := by
                    rw [← h2, ho, Option.getD_some]
                  have := ih false c _ b hrec
                  rw [this]
                  simp [specResolve, hno, ho]
              | none =>
                  have hrec : removeGo owc mwc key v false ts Node.empty =
                      ((removeGo owc mwc key v false ts (n.onode.getD Node.empty)).1, .ok b) := by
                    rw [← h2, ho]
                    rfl
                  have := removeGo_empty_false owc mwc key v ts false _ b hrec
                  rw [this]
                  simp [specResolve, hno, ho]
            · cases hgc : n.getChild t with
              | some c =>
                  rw [removeGo_lit_some ht1 hto htm v ts hgc] at h
                  injection h with h1 h2
                  have := ih false c _ b (by rw [← h2])
                  rw [this]
                  simp [specResolve, htm, hto, hgc]
              | none =>
                  rw [removeGo_lit_none ht1 hto htm v ts hgc] at h
                  injection h with _h1 h2
                  cases hcr : checkRest key false ts with
                  | error e => rw [hcr] at h2; cases h2
                  | ok u2 =>
                      rw [hcr] at h2
                      injection h2 with h3
                      rw [← h3]
                      simp [specResolve, htm, hto, hgc]

theorem removeAllGo_empty_false [DecidableEq V] (owc mwc key : String) :
    ∀ (ts : List String) (hasmwc : Bool) (n1 : Node V) (b : Bool),
      removeAllGo owc mwc key hasmwc ts Node.empty = (n1, .ok b) → b = false := by
  intro ts
  induction ts with
  | nil =>
      intro hasmwc n1 b h
      cases hasmwc with
      | false =>
          rw [removeAllGo_nil] at h
          injection h with _h1 h2
          injection h2 with h3
          rw [← h3]
          simp [Node.empty, Node.removeAllV]
      | true =>
          rw [removeAllGo_nil_mwc] at h
          injection h with _h1 h2
          injection h2 with h3
          rw [← h3]
          simp [Node.empty, Node.mwcRemoveAll]
  | cons t ts ih =>
      intro hasmwc n1 b h
      cases hch : checkToken t key hasmwc with
      | error e =>
          rw [show removeAllGo owc mwc key hasmwc (t :: ts) Node.empty =
              (Node.empty, .error e) from by simp [removeAllGo, hch]] at h
          injection h with _h1 h2
          injection h2
      | ok u =>
          cases u
          obtain ⟨ht1, ht2⟩ := checkToken_ok_iff.mp hch
          subst ht2
          by_cases htm : t = mwc
          · have hmw : mwc ≠ "" := htm ▸ ht1
            rw [htm, removeAllGo_mwc hmw] at h
            exact ih true n1 b h
          · by_cases hto : t = owc
            · have howc : owc ≠ "" := hto ▸ ht1
              have hno : owc ≠ mwc := fun hh => htm (hto.trans hh)
              rw [hto, removeAllGo_owc howc hno] at h
              injection h with h1 h2
              have h2e : (removeAllGo owc mwc key false ts (Node.empty : Node V)).2 =
                  .ok b := h2
              have hrec : removeAllGo owc mwc key false ts (Node.empty : Node V) =
                  ((removeAllGo owc mwc key false ts (Node.empty : Node V)).1, .ok b) := by
                rw [← h2e]
              exact ih false _ b hrec
            · rw [removeAllGo_lit_none ht1 hto htm ts
                (by simp [Node.getChild, Node.empty, lookupChild])] at h
              injection h with _h1 h2
              cases hcr : checkRest key false ts with
              | error e => rw [hcr] at h2; cases h2
              | ok u2 =>
                  rw [hcr] at h2
                  injection h2 with h3
                  rw [← h3]

theorem removeAllGo_spec [DecidableEq V] (owc mwc key : String) :
    ∀ (ts : List String) (hasmwc : Bool) (n n1 : Node V) (b : Bool),
      removeAllGo owc mwc key hasmwc ts n = (n1, .ok b) →
      b = (match specResolve owc mwc hasmwc ts n with
           | some s => !s.isEmpty
           | none => false) := by
  intro ts
  induction ts with
  | nil =>
      intro hasmwc n n1 b h
      cases hasmwc with
      | false =>
          rw [removeAllGo_nil] at h
          injection h with _h1 h2
          injection h2 with h3
          rw [← h3]
          cases n with
          | mk ch o m s => simp [specResolve, Node.removeAllV]
      | true =>
          rw [removeAllGo_nil_mwc] at h
          injection h with _h1 h2
          injection h2 with h3
          rw [← h3]
          cases n with
          | mk ch o m s => simp [specResolve, Node.mwcRemoveAll]
  | cons t ts ih =>
      intro hasmwc n n1 b h
      cases hch : checkToken t key hasmwc with
      | error e =>
          rw [show removeAllGo owc mwc key hasmwc (t :: ts) n =
              (n, .error e) from by simp [removeAllGo, hch]] at h
          injection h with _h1 h2
          injection h2
      | ok u =>
          cases u
          obtain ⟨ht1, ht2⟩ := checkToken_ok_iff.mp hch
          subst ht2
          by_cases htm : t = mwc
          · have hmw : mwc ≠ "" := htm ▸ ht1
            rw [htm, removeAllGo_mwc hmw] at h
            rw [htm]
            simp only [specResolve, if_true]
            exact ih true n n1 b h
          · by_cases hto : t = owc
            · have howc : owc ≠ "" := hto ▸ ht1
              have hno : owc ≠ mwc := fun hh => htm (hto.trans hh)
              rw [hto, removeAllGo_owc howc hno] at h
              rw [hto]
              injection h with h1 h2
              cases ho : n.onode with
              | some c =>
                  have hrec : removeAllGo owc mwc key false ts c =
                      ((removeAllGo owc mwc key false ts (n.onode.getD Node.empty)).1, .ok b) := by
                    rw [← h2, ho, Option.getD_some]
                  have := ih false c _ b hrec
                  rw [this]
                  simp [specResolve, hno, ho]
              | none =>
                  have hrec : removeAllGo owc mwc key false ts Node.empty =
                      ((removeAllGo owc mwc key false ts (n.onode.getD Node.empty)).1, .ok b) := by
                    rw [← h2, ho]
                    rfl
                  have := removeAllGo_empty_false owc mwc key ts false _ b hrec
                  rw [this]
                  simp [specResolve, hno, ho]
            · cases hgc : n.getChild t with
              | some c =>
                  rw [removeAllGo_lit_some ht1 hto htm ts hgc] at h
                  injection h with h1 h2
                  have := ih false c _ b (by rw [← h2])
                  rw [this]
                  simp [specResolve, htm, hto, hgc]
              | none =>
                  rw [removeAllGo_lit_none ht1 hto htm ts hgc] at h
                  injection h with _h1 h2
                  cases hcr : checkRest key false ts with
                  | error e => rw [hcr] at h2; cases h2
                  | ok u2 =>
                      rw [hcr] at h2
                      injection h2 with h3
                      rw [← h3]
                      simp [specResolve, htm, hto, hgc]

theorem removeGo_error_collect [DecidableEq V] (owc mwc key : String) (v : V) :
    ∀ (ts : List String) (hasmwc : Bool) (n n1 : Node V) (e : Error),
      removeGo owc mwc key v hasmwc ts n = (n1, .error e) →
      n1.collectDeep = n.collectDeep := by
  intro ts
  induction ts with
  | nil =>
      intro hasmwc n n1 e h
      cases hasmwc with
      | false => rw [removeGo_nil] at h; injection h with _h1 h2; cases h2
      | true => rw [removeGo_nil_mwc] at h; injection h with _h1 h2; cases h2
  | cons t ts ih =>
      intro hasmwc n n1 e h
      cases hch : checkToken t key hasmwc with
      | error e0 =>
          rw [show removeGo owc mwc key v hasmwc (t :: ts) n = (n, .error e0) from by
            simp [removeGo, hch]] at h
          injection h with h1 _h2
          rw [← h1]
      | ok u =>
          cases u
          obtain ⟨ht1, ht2⟩ := checkToken_ok_iff.mp hch
          subst ht2
          by_cases htm : t = mwc
          · have hmw : mwc ≠ "" := htm ▸ ht1
            rw [htm, removeGo_mwc hmw] at h
            exact ih true n n1 e h
          · by_cases hto : t = owc
            · have howc : owc ≠ "" := hto ▸ ht1
              have hno : owc ≠ mwc := fun hh => htm (hto.trans hh)
              rw [hto, removeGo_owc howc hno] at h
              injection h with h1 h2
              have hIH := ih false (n.onode.getD Node.empty) _ e (by rw [← h2])
              rw [← h1]
              refine collectDeep_setOnode ?_ ?_
              · intro c0 hc0
                rw [hIH, hc0, Option.getD_some]
              · intro hc0
                rw [hIH, hc0]
                simp
            · cases hgc : n.getChild t with
              | some c =>
                  rw [removeGo_lit_some ht1 hto htm v ts hgc] at h
                  injection h with h1 h2
                  have hIH := ih false c _ e (by rw [← h2])
                  rw [← h1]
                  refine collectDeep_setChild ?_ ?_
                  · intro c0 hc0
                    rw [hgc] at hc0
                    injection hc0 with hc1
                    rw [hIH, hc1]
                  · intro hc0
                    rw [hgc] at hc0
                    cases hc0
              | none =>
                  rw [removeGo_lit_none ht1 hto htm v ts hgc] at h
                  injection h with h1 _h2
                  rw [← h1]

theorem removeAllGo_error_collect [DecidableEq V] (owc mwc key : String) :
    ∀ (ts : List String) (hasmwc : Bool) (n n1 : Node V) (e : Error),
      removeAllGo owc mwc key hasmwc ts n = (n1, .error e) →
      n1.collectDeep = n.collectDeep := by
  intro ts
  induction ts with
  | nil =>
      intro hasmwc n n1 e h
      cases hasmwc with
      | false => rw [removeAllGo_nil] at h; injection h with _h1 h2; cases h2
      | true => rw [removeAllGo_nil_mwc] at h; injection h with _h1 h2; cases h2
  | cons t ts ih =>
      intro hasmwc n n1 e h
      cases hch : checkToken t key hasmwc with
      | error e0 =>
          rw [show removeAllGo owc mwc key hasmwc (t :: ts) n = (n, .error e0) from by
            simp [removeAllGo, hch]] at h
          injection h with h1 _h2
          rw [← h1]
      | ok u =>
          cases u
          obtain ⟨ht1, ht2⟩ := checkToken_ok_iff.mp hch
          subst ht2
          by_cases htm : t = mwc
          · have hmw : mwc ≠ "" := htm ▸ ht1
            rw [htm, removeAllGo_mwc hmw] at h
            exact ih true n n1 e h
          · by_cases hto : t = owc
            · have howc : owc ≠ "" := hto ▸ ht1
              have hno : owc ≠ mwc := fun hh => htm (hto.trans hh)
              rw [hto, removeAllGo_owc howc hno] at h
              injection h with h1 h2
              have hIH := ih false (n.onode.getD Node.empty) _ e (by rw [← h2])
              rw [← h1]
              refine collectDeep_setOnode ?_ ?_
              · intro c0 hc0
                rw [hIH, hc0, Option.getD_some]
              · intro hc0
                rw [hIH, hc0]
                simp
            · cases hgc : n.getChild t with
              | some c =>
                  rw [removeAllGo_lit_some ht1 hto htm ts hgc] at h
                  injection h with h1 h2
                  have hIH := ih false c _ e (by rw [← h2])
                  rw [← h1]
                  refine collectDeep_setChild ?_ ?_
                  · intro c0 hc0
                    rw [hgc] at hc0
                    injection hc0 with hc1
                    rw [hIH, hc1]
                  · intro hc0
                    rw [hgc] at hc0
                    cases hc0
              | none =>
                  rw [removeAllGo_lit_none ht1 hto htm ts hgc] at h
                  injection h with h1 _h2
                  rw [← h1]

/-! The find walk always succeeds on validated literal tokens. -/

theorem findGo_lit_ok (owc mwc key : String) :
    ∀ (ts : List String) (nodes : List (Node V)),
      (∀ tok ∈ ts, tok ≠ "" ∧ tok ≠ owc ∧ tok ≠ mwc) →
      ∃ l, findGo owc mwc key false nodes ts = .ok l := by
  intro ts
  induction ts with
  | nil => intro nodes _h; exact ⟨_, rfl⟩
  | cons t ts ih =>
      intro nodes h
      obtain ⟨ht1, ht2, ht3⟩ := h t (by simp)
      have hrest : ∀ tok ∈ ts, tok ≠ "" ∧ tok ≠ owc ∧ tok ≠ mwc :=
        fun tok htok => h tok (List.mem_cons_of_mem t htok)
      cases hne : nodes.isEmpty with
      | true =>
          obtain ⟨l, hl⟩ := ih nodes hrest
          refine ⟨l, ?_⟩
          simp only [findGo, checkToken, ht1, if_neg, hne, if_true]
          simpa [checkToken, ht1] using hl
      | false =>
          obtain ⟨l, hl⟩ := ih (nodes.filterMap (Node.getChild t)) hrest
          refine ⟨joinMap Node.mValueSet nodes ++ l, ?_⟩
          rw [findGo_lit ht1 ht2 ht3 hne ts, hl]

/-! Successful parses classify each segment in order. -/

theorem parseTokensGo_ok (owc mwc : String) :
    ∀ (segs : List String) (acc : List Token) (hasMwc : Bool) (toks : List Token),
      parseTokensGo owc mwc segs acc hasMwc = .ok toks →
      toks = acc ++ segs.map (classifyToken owc mwc) := by
  intro segs
  induction segs with
  | nil =>
      intro acc hasMwc toks h
      simp only [parseTokensGo, Except.ok.injEq] at h
      simp [← h]
  | cons sg rest ih =>
      intro acc hasMwc toks h
      cases hasMwc with
      | true => simp [parseTokensGo] at h
      | false =>
          by_cases ho : sg = owc
          · simp only [parseTokensGo, Bool.false_eq_true, if_false, if_pos ho] at h
            have h2 := ih (acc ++ [.OneWildcard]) false toks h
            have hcl : classifyToken owc mwc sg = Token.OneWildcard := by
              simp only [classifyToken, if_pos ho]
            simp [h2, hcl]
          · by_cases hm : sg = mwc
            · simp only [parseTokensGo, Bool.false_eq_true, if_false, if_neg ho,
                if_pos hm] at h
              have h2 := ih (acc ++ [.MultiWildcard]) true toks h
              have hcl : classifyToken owc mwc sg = Token.MultiWildcard := by
                simp only [classifyToken, if_neg ho, if_pos hm]
              simp [h2, hcl]
            · simp only [parseTokensGo, Bool.false_eq_true, if_false, if_neg ho,
                if_neg hm] at h
              have h2 := ih (acc ++ [.Normal sg]) false toks h
              have hcl : classifyToken owc mwc sg = Token.Normal sg := by
                simp only [classifyToken, if_neg ho, if_neg hm]
              simp [h2, hcl]

/-! An empty token anywhere in the token list makes the walks fail. -/

theorem findGo_error_of_empty (owc mwc key : String) :
    ∀ (ts : List String) (hasmwc : Bool) (nodes : List (Node V)),
      "" ∈ ts → ∃ e, findGo owc mwc key hasmwc nodes ts = .error e := by
  intro ts
  induction ts with
  | nil => intro hasmwc nodes h; simp at h
  | cons t ts ih =>
      intro hasmwc nodes h
      by_cases ht : t = ""
      · refine ⟨Error.EmptyToken key, ?_⟩
        simp [findGo, checkToken, ht]
      · have hts : "" ∈ ts := by
          rcases List.mem_cons.mp h with h1 | h1
          · exact absurd h1.symm ht
          · exact h1
        cases hch : checkToken t key hasmwc with
        | error e => exact ⟨e, by simp [findGo, hch]⟩
        | ok u =>
            cases u
            obtain ⟨_ht1, ht2⟩ := checkToken_ok_iff.mp hch
            subst ht2
            cases hne : nodes.isEmpty with
            | true =>
                obtain ⟨e, he⟩ := ih false nodes hts
                exact ⟨e, by simp only [findGo, hch, hne, if_true]; exact he⟩
            | false =>
                by_cases hto : t = owc
                · have howc : owc ≠ "" := fun hh => ht (hto.trans hh)
                  obtain ⟨e, he⟩ := ih false (joinMap Node.owcExpand nodes) hts
                  refine ⟨e, ?_⟩
                  rw [hto, findGo_owc howc hne ts, he]
                · by_cases htm : t = mwc
                  · have hmw : mwc ≠ "" := fun hh => ht (htm.trans hh)
                    have hno2 : mwc ≠ owc := fun hh => hto (htm.trans hh)
                    obtain ⟨e, he⟩ := ih true nodes hts
                    refine ⟨e, ?_⟩
                    rw [htm, findGo_mwc hmw hno2 hne ts, he]
                  · obtain ⟨e, he⟩ := ih false (nodes.filterMap (Node.getChild t)) hts
                    refine ⟨e, ?_⟩
                    rw [findGo_lit ht hto htm hne ts, he]

theorem insertGo_error_of_empty [DecidableEq V] (owc mwc key : String) (v : V) :
    ∀ (ts : List String) (hasmwc : Bool) (n : Node V),
      "" ∈ ts → ∃ e n1, insertGo owc mwc key v hasmwc ts n = (n1, .error e) := by
  intro ts
  induction ts with
  | nil => intro hasmwc n h; simp at h
  | cons t ts ih =>
      intro hasmwc n h
      by_cases ht : t = ""
      · exact ⟨Error.EmptyToken key, n, by simp [insertGo, checkToken, ht]⟩
      · have hts : "" ∈ ts := by
          rcases List.mem_cons.mp h with h1 | h1
          · exact absurd h1.symm ht
          · exact h1
        cases hch : checkToken t key hasmwc with
        | error e => exact ⟨e, n, by simp [insertGo, hch]⟩
        | ok u =>
            cases u
            obtain ⟨_ht1, ht2⟩ := checkToken_ok_iff.mp hch
            subst ht2
            by_cases htm : t = mwc
            · have hmw : mwc ≠ "" := fun hh => ht (htm.trans hh)
              obtain ⟨e, n1, he⟩ := ih true n hts
              exact ⟨e, n1, by rw [htm, insertGo_mwc hmw, he]⟩
            · by_cases hto : t = owc
              · have howc : owc ≠ "" := fun hh => ht (hto.trans hh)
                have hno : owc ≠ mwc := fun hh => htm (hto.trans hh)
                obtain ⟨e, n1, he⟩ := ih false (n.onode.getD Node.empty) hts
                refine ⟨e, n.setOnode n1, ?_⟩
                rw [hto, insertGo_owc howc hno, he]
              · obtain ⟨e, n1, he⟩ := ih false ((n.getChild t).getD Node.empty) hts
                refine ⟨e, n.setChild t n1, ?_⟩
                rw [insertGo_lit ht hto htm, he]

theorem checkRest_error_of_empty (key : String) :
    ∀ (ts : List String) (hasmwc : Bool),
      "" ∈ ts → ∃ e, checkRest key hasmwc ts = .error e := by
  intro ts
  induction ts with
  | nil => intro hasmwc h; simp at h
  | cons t ts ih =>
      intro hasmwc h
      by_cases ht : t = ""
      · exact ⟨Error.EmptyToken key, by simp [checkRest, checkToken, ht]⟩
      · have hts : "" ∈ ts := by
          rcases List.mem_cons.mp h with h1 | h1
          · exact absurd h1.symm ht
          · exact h1
        cases hch : checkToken t key hasmwc with
        | error e => exact ⟨e, by simp [checkRest, hch]⟩
        | ok u =>
            obtain ⟨e, he⟩ := ih hasmwc hts
            exact ⟨e, by simp [checkRest, hch, he]⟩

theorem removeGo_error_of_empty [DecidableEq V] (owc mwc key : String) (v : V) :
    ∀ (ts : List String) (hasmwc : Bool) (n : Node V),
      "" ∈ ts → ∃ e n1, removeGo owc mwc key v hasmwc ts n = (n1, .error e) := by
  intro ts
  induction ts with
  | nil => intro hasmwc n h; simp at h
  | cons t ts ih =>
      intro hasmwc n h
      by_cases ht : t = ""
      · exact ⟨Error.EmptyToken key, n, by simp [removeGo, checkToken, ht]⟩
      · have hts : "" ∈ ts := by
          rcases List.mem_cons.mp h with h1 | h1
          · exact absurd h1.symm ht
          · exact h1
        cases hch : checkToken t key hasmwc with
        | error e => exact ⟨e, n, by simp [removeGo, hch]⟩
        | ok u =>
            cases u
            obtain ⟨_ht1, ht2⟩ := checkToken_ok_iff.mp hch
            subst ht2
            by_cases htm : t = mwc
            · have hmw : mwc ≠ "" := fun hh => ht (htm.trans hh)
              obtain ⟨e, n1, he⟩ := ih true n hts
              exact ⟨e, n1, by rw [htm, removeGo_mwc hmw, he]⟩
            · by_cases hto : t = owc
              · have howc : owc ≠ "" := fun hh => ht (hto.trans hh)
                have hno : owc ≠ mwc := fun hh => htm (hto.trans hh)
                obtain ⟨e, n1, he⟩ := ih false (n.onode.getD Node.empty) hts
                refine ⟨e, n.setOnode n1, ?_⟩
                rw [hto, removeGo_owc howc hno, he]
              · cases hgc : n.getChild t with
                | some c =>
                    obtain ⟨e, n1, he⟩ := ih false c hts
                    refine ⟨e, n.setChild t n1, ?_⟩
                    rw [removeGo_lit_some ht hto htm v ts hgc, he]
                | none =>
                    obtain ⟨e, he⟩ := checkRest_error_of_empty key ts false hts
                    refine ⟨e, n, ?_⟩
                    rw [removeGo_lit_none ht hto htm v ts hgc, he]
                    rfl

theorem removeAllGo_error_of_empty [DecidableEq V] (owc mwc key : String) :
    ∀ (ts : List String) (hasmwc : Bool) (n : Node V),
      "" ∈ ts → ∃ e n1, removeAllGo owc mwc key hasmwc ts n = (n1, .error e) := by
  intro ts
  induction ts with
  | nil => intro hasmwc n h; simp at h
  | cons t ts ih =>
      intro hasmwc n h
      by_cases ht : t = ""
      · exact ⟨Error.EmptyToken key, n, by simp [removeAllGo, checkToken, ht]⟩
      · have hts : "" ∈ ts := by
          rcases List.mem_cons.mp h with h1 | h1
          · exact absurd h1.symm ht
          · exact h1
        cases hch : checkToken t key hasmwc with
        | error e => exact ⟨e, n, by simp [removeAllGo, hch]⟩
        | ok u =>
            cases u
            obtain ⟨_ht1, ht2⟩ := checkToken_ok_iff.mp hch
            subst ht2
            by_cases htm : t = mwc
            · have hmw : mwc ≠ "" := fun hh => ht (htm.trans hh)
              obtain ⟨e, n1, he⟩ := ih true n hts
              exact ⟨e, n1, by rw [htm, removeAllGo_mwc hmw, he]⟩
            · by_cases hto : t = owc
              · have howc : owc ≠ "" := fun hh => ht (hto.trans hh)
                have hno : owc ≠ mwc := fun hh => htm (hto.trans hh)
                obtain ⟨e, n1, he⟩ := ih false (n.onode.getD Node.empty) hts
                refine ⟨e, n.setOnode n1, ?_⟩
                rw [hto, removeAllGo_owc howc hno, he]
              · cases hgc : n.getChild t with
                | some c =>
                    obtain ⟨e, n1, he⟩ := ih false c hts
                    refine ⟨e, n.setChild t n1, ?_⟩
                    rw [removeAllGo_lit_some ht hto htm ts hgc, he]
                | none =>
                    obtain ⟨e, he⟩ := checkRest_error_of_empty key ts false hts
                    refine ⟨e, n, ?_⟩
                    rw [removeAllGo_lit_none ht hto htm ts hgc, he]
                    rfl

/-! Keys without the separator split into a single token. -/

theorem splitChars_no_sep (sc : Char) :
    ∀ (l : List Char), (∀ c ∈ l, c ≠ sc) → splitChars sc l = [l] := by
  intro l
  induction l with
  | nil => intro _h; rfl
  | cons c cs ih =>
      intro h
      have hc : c ≠ sc := h c (by simp)
      have := ih (fun c1 hc1 => h c1 (by simp [hc1]))
      simp [splitChars, hc, this]

theorem tokensOf_no_sep {sc : Char} {key : String} (h : ∀ c ∈ key.data, c ≠ sc) :
    tokensOf sc key = [key] := by
  unfold tokensOf
  rw [splitChars_no_sep sc key.data h]
  cases key
  rfl

/-! A find operation in a sequence leaves the state unchanged. -/

theorem runOps_find [DecidableEq V] (k : String) :
    ∀ (ops : List (Op V)) (t : Trie V),
      runOps t (ops ++ [Op.findOp k]) = runOps t ops := by
  intro ops
  induction ops with
  | nil => intro t; rfl
  | cons op rest ih => intro t; exact ih (applyOp t op)

/-! Unfolding equations for the API wrappers. -/

theorem find_eq_of_tokens {t : Trie V} {key : String} {toks : List String}
    (htk : tokensFromKey key t.sc = .ok toks) :
    t.find key = findGo t.owc t.mwc key false [t.root] toks := by
  unfold Trie.find
  rw [htk]

theorem find_eq_of_error {t : Trie V} {key : String} {e : Error}
    (htk : tokensFromKey key t.sc = .error e) :
    t.find key = .error e := by
  unfold Trie.find
  rw [htk]

theorem exist_eq_of_tokens {t : Trie V} {key : String} {toks : List String}
    (htk : tokensFromKey key t.sc = .ok toks) :
    t.exist key = existGo t.owc t.mwc key false [t.root] toks := by
  unfold Trie.exist
  rw [htk]

theorem insert_eq_of_tokens [DecidableEq V] {t : Trie V} {key : String} {toks : List String}
    (htk : tokensFromKey key t.sc = .ok toks) (v : V) :
    t.insert key v =
      (⟨(insertGo t.owc t.mwc key v false toks t.root).1, t.sc, t.owc, t.mwc⟩,
       (insertGo t.owc t.mwc key v false toks t.root).2) := by
  unfold Trie.insert
  rw [htk]

theorem insert_eq_of_error [DecidableEq V] {t : Trie V} {key : String} {e : Error}
    (htk : tokensFromKey key t.sc = .error e) (v : V) :
    t.insert key v = (t, .error e) := by
  unfold Trie.insert
  rw [htk]

theorem remove_eq_of_tokens [DecidableEq V] {t : Trie V} {key : String} {toks : List String}
    (htk : tokensFromKey key t.sc = .ok toks) (v : V) :
    t.remove key v =
      (⟨(removeGo t.owc t.mwc key v false toks t.root).1, t.sc, t.owc, t.mwc⟩,
       (removeGo t.owc t.mwc key v false toks t.root).2) := by
  unfold Trie.remove
  rw [htk]

theorem remove_eq_of_error [DecidableEq V] {t : Trie V} {key : String} {e : Error}
    (htk : tokensFromKey key t.sc = .error e) (v : V) :
    t.remove key v = (t, .error e) := by
  unfold Trie.remove
  rw [htk]

theorem removeAll_eq_of_tokens [DecidableEq V] {t : Trie V} {key : String}
    {toks : List String} (htk : tokensFromKey key t.sc = .ok toks) :
    t.removeAll key =
      (⟨(removeAllGo t.owc t.mwc key false toks t.root).1, t.sc, t.owc, t.mwc⟩,
       (removeAllGo t.owc t.mwc key false toks t.root).2) := by
  unfold Trie.removeAll
  rw [htk]

theorem removeAll_eq_of_error [DecidableEq V] {t : Trie V} {key : String} {e : Error}
    (htk : tokensFromKey key t.sc = .error e) :
    t.removeAll key = (t, .error e) := by
  unfold Trie.removeAll
  rw [htk]

theorem tokensFromKey_of_ne {key : String} (sc : Char) (hk : key ≠ "") :
    tokensFromKey key sc = .ok (tokensOf sc key) := by
  unfold tokensFromKey
  rw [if_neg hk]

/-! Claim theorems. -/

/-- C1 counterexample: after inserting value 0 under the single-wildcard
pattern, a concrete one-token key does not return the value — find returns the
empty list, refuting that the wildcard child is entered for a literal key
token; the insertion itself succeeded. -/
theorem claim_C1_counterexample :
    ((Trie.new '.' "*" ">" : Trie Nat).insert "*" 0).2 = .ok () ∧
    (((Trie.new '.' "*" ">" : Trie Nat).insert "*" 0).1.find "x") = .ok [] := by
  exact ⟨rfl, rfl⟩

/-- C2: the trie keeps no result cache, so a query is always the cold
recomputation over the current contents — find of the state reached by any
operation sequence equals the spec cold recomputation on that state, and a
find operation placed in a sequence leaves the state unchanged. -/
theorem claim_C2 [DecidableEq V] (t : Trie V) (ops : List (Op V)) (key keys : String) :
    Trie.find (runOps t ops) keys = coldFind (runOps t ops) keys ∧
    runOps t (ops ++ [Op.findOp key]) = runOps t ops :=
  ⟨rfl, runOps_find key ops t⟩

/-- C4 counterexample: inserting the same pair twice returns the unit success
both times — the Rust Result of Trie::insert carries no newly-added Boolean,
so the second call cannot return false as the claim states. -/
theorem claim_C4_counterexample :
    ((Trie.new '.' "*" ">" : Trie Nat).insert "a" 0).2 = .ok () ∧
    (((Trie.new '.' "*" ">" : Trie Nat).insert "a" 0).1.insert "a" 0).2 = .ok () := by
  exact ⟨rfl, rfl⟩

/-- C4 amended: insert returns plain unit success; repeating a successful
insert is idempotent — the second call leaves the trie exactly unchanged and
again returns unit success (the newly-added Boolean computed by Node::add is
discarded by Trie::insert). -/
theorem claim_C4_amended [DecidableEq V] (t t1 : Trie V) (key : String) (v : V)
    (h : t.insert key v = (t1, .ok ())) :
    t1.insert key v = (t1, .ok ()) := by
  cases htk : tokensFromKey key t.sc with
  | error e =>
      rw [insert_eq_of_error htk v] at h
      injection h with _h1 h2
      cases h2
  | ok toks =>
      rw [insert_eq_of_tokens htk v] at h
      injection h with h1 h2
      have hgo : insertGo t.owc t.mwc key v false toks t.root =
          ((insertGo t.owc t.mwc key v false toks t.root).1, .ok ()) := by
        rw [← h2]
      have hidem := insertGo_idem t.owc t.mwc key v toks false t.root _ hgo
      have htk1 : tokensFromKey key t1.sc = .ok toks := by rw [← h1]; exact htk
      rw [insert_eq_of_tokens htk1 v, ← h1]
      simp only [hidem]

/-- C4 amended witness at a concrete input. -/
theorem claim_C4_amended_witness :
    ((⟨Node.mk [("a", Node.mk [] none [] [0])] none [] [], '.', "*", ">"⟩ : Trie Nat).insert
      "a" 0) =
    ((⟨Node.mk [("a", Node.mk [] none [] [0])] none [] [], '.', "*", ">"⟩ : Trie Nat),
      .ok ()) := by
  exact claim_C4_amended (Trie.new '.' "*" ">")
    ⟨Node.mk [("a", Node.mk [] none [] [0])] none [] [], '.', "*", ">"⟩ "a" 0 rfl

/-- C5 counterexample: on a key whose frontier dies before an invalid trailing
empty token, find reports the parse error while exist already returned false —
exist does not fail with a parse error exactly when find does. -/
theorem claim_C5_counterexample :
    (Trie.new '.' "*" ">" : Trie Nat).find "a.b." = .error (.EmptyToken "a.b.") ∧
    (Trie.new '.' "*" ">" : Trie Nat).exist "a.b." = .ok false := by
  exact ⟨rfl, rfl⟩

/-- C5 amended: with distinct wildcard markers, whenever find succeeds, exist
succeeds and returns exactly whether the find result is non-empty; error
agreement only fails where exist short-circuits to false on an empty frontier
before validating the remaining tokens. -/
theorem claim_C5_amended [DecidableEq V] (t : Trie V) (key : String) (l : List V)
    (hd : t.owc ≠ t.mwc) (h : t.find key = .ok l) :
    t.exist key = .ok (!l.isEmpty) := by
  cases htk : tokensFromKey key t.sc with
  | error e => rw [find_eq_of_error htk] at h; cases h
  | ok toks =>
      rw [find_eq_of_tokens htk] at h
      rw [exist_eq_of_tokens htk]
      exact findGo_exist_agree key hd toks false [t.root] l h

/-- C5 amended witness at a concrete input. -/
theorem claim_C5_amended_witness :
    (Trie.new '.' "*" ">" : Trie Nat).exist "a" = .ok false := by
  exact claim_C5_amended (Trie.new '.' "*" ">") "a" [] (by decide) rfl

/-- C8 counterexample: a fresh trie has no children; an insert that fails on
the trailing empty token reports the EmptyToken error and yet leaves behind a
newly created (empty) literal child — the state is not exactly as before the
call. -/
theorem claim_C8_counterexample :
    (Trie.new '.' "*" ">" : Trie Nat).root.children = [] ∧
    ((Trie.new '.' "*" ">" : Trie Nat).insert "a." 0).2 = .error (.EmptyToken "a.") ∧
    ((Trie.new '.' "*" ">" : Trie Nat).insert "a." 0).1.root.children =
      [("a", Node.empty)] := by
  exact ⟨rfl, rfl, rfl⟩

/-- C8 amended: a parse failure in insert, remove or remove_all never changes
the stored values — the value sequence collected over the whole trie is
unchanged — although empty nodes may have been created along the traversed
prefix before the failure (find and exist take the trie immutably and return
no state at all). -/
theorem claim_C8_amended [DecidableEq V] (t : Trie V) (key : String) (v : V) (e : Error) :
    ((t.insert key v).2 = .error e →
      (t.insert key v).1.root.collectDeep = t.root.collectDeep) ∧
    ((t.remove key v).2 = .error e →
      (t.remove key v).1.root.collectDeep = t.root.collectDeep) ∧
    ((t.removeAll key).2 = .error e →
      (t.removeAll key).1.root.collectDeep = t.root.collectDeep) := by
  refine ⟨?_, ?_, ?_⟩
  · intro h
    cases htk : tokensFromKey key t.sc with
    | error e0 => rw [insert_eq_of_error htk v]
    | ok toks =>
        rw [insert_eq_of_tokens htk v] at h ⊢
        exact insertGo_error_collect t.owc t.mwc key v toks false t.root _ e (by rw [← h])
  · intro h
    cases htk : tokensFromKey key t.sc with
    | error e0 => rw [remove_eq_of_error htk v]
    | ok toks =>
        rw [remove_eq_of_tokens htk v] at h ⊢
        exact removeGo_error_collect t.owc t.mwc key v toks false t.root _ e (by rw [← h])
  · intro h
    cases htk : tokensFromKey key t.sc with
    | error e0 => rw [removeAll_eq_of_error htk]
    | ok toks =>
        rw [removeAll_eq_of_tokens htk] at h ⊢
        exact removeAllGo_error_collect t.owc t.mwc key toks false t.root _ e (by rw [← h])

/-- C8 amended witness at a concrete input. -/
theorem claim_C8_amended_witness :
    ((Trie.new '.' "*" ">" : Trie Nat).insert "a." 0).1.root.collectDeep =
      (Trie.new '.' "*" ">" : Trie Nat).root.collectDeep := by
  exact (claim_C8_amended (Trie.new '.' "*" ">") "a." 0 (.EmptyToken "a.")).1 rfl

/-- C9: remove and remove_all address one entry by exact path, reporting
exactly what the spec-side resolution determines: remove returns whether the
value was present in the addressed set, remove_all whether that set was
non-empty, and a missing path yields false, not an error. -/
theorem claim_C9 [DecidableEq V] (t : Trie V) (key : String) (v : V)
    (b c : Bool) (t1 t2 : Trie V)
    (hr : t.remove key v = (t1, .ok b)) (ha : t.removeAll key = (t2, .ok c)) :
    b = (match specTarget t key with
         | some s => decide (v ∈ s)
         | none => false) ∧
    c = (match specTarget t key with
         | some s => !s.isEmpty
         | none => false) := by
  cases htk : tokensFromKey key t.sc with
  | error e =>
      rw [remove_eq_of_error htk v] at hr
      injection hr with _h1 h2
      cases h2
  | ok toks =>
      rw [remove_eq_of_tokens htk v] at hr
      rw [removeAll_eq_of_tokens htk] at ha
      injection hr with hr1 hr2
      injection ha with ha1 ha2
      have htoks : toks = tokensOf t.sc key := by
        unfold tokensFromKey at htk
        by_cases hk : key = ""
        · rw [if_pos hk] at htk; cases htk
        · rw [if_neg hk] at htk; injection htk with h3; exact h3.symm
      constructor
      · have := removeGo_spec t.owc t.mwc key v toks false t.root _ b (by rw [← hr2])
        rw [this]
        unfold specTarget
        rw [htoks]
      · have := removeAllGo_spec t.owc t.mwc key toks false t.root _ c (by rw [← ha2])
        rw [this]
        unfold specTarget
        rw [htoks]

/-- C9 witness at a concrete input: removing a present value reports true, as
the spec-side resolution of the addressed set determines. -/
theorem claim_C9_witness :
    (true = (match specTarget ((Trie.new '.' "*" ">" : Trie Nat).insert "a" 0).1 "a" with
             | some s => decide (0 ∈ s)
             | none => false)) ∧
    (true = (match specTarget ((Trie.new '.' "*" ">" : Trie Nat).insert "a" 0).1 "a" with
             | some s => !s.isEmpty
             | none => false)) := by
  exact claim_C9 ((Trie.new '.' "*" ">" : Trie Nat).insert "a" 0).1 "a" 0 true true
    (((Trie.new '.' "*" ">" : Trie Nat).insert "a" 0).1.remove "a" 0).1
    (((Trie.new '.' "*" ">" : Trie Nat).insert "a" 0).1.removeAll "a").1 rfl rfl

/-- C10: find and exist expand wildcard markers occurring in the query key —
a one-wildcard key token moves the frontier into the wildcard child and every
literal child of each frontier node (in find and, when no multi-wildcard
values short-circuit it, in exist), a trailing multi-wildcard key token
returns the multi-wildcard values of the frontier plus the deep collection of
its whole remaining subtrees, and membership in that deep collection holds
exactly for values stored in the terminal or multi-wildcard set of some
descendant node. -/
theorem claim_C10 [DecidableEq V] (owc mwc key : String) (nodes : List (Node V))
    (ts : List String) (w : V) (n : Node V)
    (howc : owc ≠ "") (hmwc : mwc ≠ "") (hno : mwc ≠ owc)
    (hne : nodes.isEmpty = false)
    (hnm : nodes.any (fun n0 => !n0.mValueSet.isEmpty) = false) :
    (findGo owc mwc key false nodes (owc :: ts) =
      (match findGo owc mwc key false (joinMap Node.owcExpand nodes) ts with
       | .error e => .error e
       | .ok rest => .ok (joinMap Node.mValueSet nodes ++ rest))) ∧
    (existGo owc mwc key false nodes (owc :: ts) =
      existGo owc mwc key false (joinMap Node.owcExpand nodes) ts) ∧
    (findGo owc mwc key false nodes [mwc] =
      .ok (joinMap Node.mValueSet nodes ++ joinMap Node.collectDeep nodes)) ∧
    (w ∈ n.collectDeep ↔ ∃ d, Node.Desc n d ∧ (w ∈ d.valueSet ∨ w ∈ d.mValueSet)) := by
  refine ⟨findGo_owc howc hne ts, ?_, ?_, mem_collectDeep_iff n w⟩
  · have hom : owc ≠ mwc := fun hh => hno hh.symm
    simp [existGo, checkToken, howc, hom, hne, hnm]
  · rw [findGo_mwc hmwc hno hne []]
    simp [findGo]

/-- C10 witness at a concrete input. -/
theorem claim_C10_witness :
    (findGo "*" ">" "x" false [(Node.empty : Node Nat)] ["*"] =
      (match findGo "*" ">" "x" false (joinMap Node.owcExpand [(Node.empty : Node Nat)]) [] with
       | .error e => .error e
       | .ok rest => .ok (joinMap Node.mValueSet [(Node.empty : Node Nat)] ++ rest))) ∧
    (existGo "*" ">" "x" false [(Node.empty : Node Nat)] ["*"] =
      existGo "*" ">" "x" false (joinMap Node.owcExpand [(Node.empty : Node Nat)]) []) ∧
    (findGo "*" ">" "x" false [(Node.empty : Node Nat)] [">"] =
      .ok (joinMap Node.mValueSet [(Node.empty : Node Nat)] ++
        joinMap Node.collectDeep [(Node.empty : Node Nat)])) ∧
    ((0 : Nat) ∈ (Node.empty : Node Nat).collectDeep ↔
      ∃ d, Node.Desc (Node.empty : Node Nat) d ∧ (0 ∈ d.valueSet ∨ 0 ∈ d.mValueSet)) := by
  exact claim_C10 "*" ">" "x" [(Node.empty : Node Nat)] [] 0 Node.empty
    (by decide) (by decide) (by decide) rfl rfl

/-- C1 amended: during find a concrete (non-marker) key token moves the
frontier only into the exact literal child — the wildcard child is entered
only when the key token itself equals the one-wildcard marker. After
inserting v under the one-wildcard pattern, querying the marker itself
returns v while any other separator-free single-token key returns the empty
result. -/
theorem claim_C1_amended [DecidableEq V] (v : V) (x : String)
    (h1 : x ≠ "") (h2 : x ≠ "*") (h3 : x ≠ ">") (h4 : ∀ c ∈ x.data, c ≠ '.') :
    ((((Trie.new '.' "*" ">" : Trie V).insert "*" v).1.find x) = .ok []) ∧
    ((((Trie.new '.' "*" ">" : Trie V).insert "*" v).1.find "*") = .ok [v]) := by
  refine ⟨?_, rfl⟩
  have hroot : ((Trie.new '.' "*" ">" : Trie V).insert "*" v).1 =
      (⟨Node.mk [] (some (Node.mk [] none [] [v])) [] [], '.', "*", ">"⟩ : Trie V) := rfl
  rw [hroot]
  have htk : tokensFromKey x
      (⟨Node.mk [] (some (Node.mk [] none [] [v])) [] [], '.', "*", ">"⟩ : Trie V).sc =
      .ok [x] := by
    rw [tokensFromKey_of_ne _ h1]
    rw [show (⟨Node.mk [] (some (Node.mk [] none [] [v])) [] [], '.', "*", ">"⟩ :
      Trie V).sc = '.' from rfl]
    rw [tokensOf_no_sep h4]
  rw [find_eq_of_tokens htk]
  rw [findGo_lit h1 h2 h3 (by rfl) []]
  rw [show ([(⟨Node.mk [] (some (Node.mk [] none [] [v])) [] [], '.', "*", ">"⟩ :
      Trie V).root].filterMap (Node.getChild x)) = [] from by
    simp [Node.getChild, lookupChild]]
  rfl

/-- C1 amended witness at a concrete input. -/
theorem claim_C1_amended_witness :
    ((((Trie.new '.' "*" ">" : Trie Nat).insert "*" 7).1.find "x") = .ok []) ∧
    ((((Trie.new '.' "*" ">" : Trie Nat).insert "*" 7).1.find "*") = .ok [7]) := by
  exact claim_C1_amended 7 "x" (by decide) (by decide) (by decide) (by decide)

/-- C3: inserting a value under a wildcard-free pattern and then querying the
very same key succeeds and yields the value in the result. -/
theorem claim_C3 [DecidableEq V] (t : Trie V) (p : String) (v : V)
    (h : ∀ tok ∈ tokensOf t.sc p, tok ≠ "" ∧ tok ≠ t.owc ∧ tok ≠ t.mwc) :
    ∃ t1 l, t.insert p v = (t1, .ok ()) ∧ t1.find p = .ok l ∧ v ∈ l := by
  by_cases hp : p = ""
  · exfalso
    have hm : "" ∈ tokensOf t.sc p := by
      rw [hp]
      show "" ∈ tokensOf t.sc ""
      simp [tokensOf, splitChars]
    exact (h "" hm).1 rfl
  · have htk := tokensFromKey_of_ne t.sc hp
    obtain ⟨hins, l, hfind, hmem⟩ :=
      insertGo_lit_find t.owc t.mwc p (tokensOf t.sc p) t.root v h
    refine ⟨⟨(insertGo t.owc t.mwc p v false (tokensOf t.sc p) t.root).1,
      t.sc, t.owc, t.mwc⟩, l, ?_, ?_, hmem⟩
    · rw [insert_eq_of_tokens htk v, hins]
    · have htk1 : tokensFromKey p
          (⟨(insertGo t.owc t.mwc p v false (tokensOf t.sc p) t.root).1,
            t.sc, t.owc, t.mwc⟩ : Trie V).sc = .ok (tokensOf t.sc p) := htk
      rw [find_eq_of_tokens htk1]
      exact hfind

/-- C3 witness at a concrete input. -/
theorem claim_C3_witness :
    ∃ t1 l, (Trie.new '.' "*" ">" : Trie Nat).insert "a.b" 7 = (t1, .ok ()) ∧
      t1.find "a.b" = .ok l ∧ 7 ∈ l := by
  exact claim_C3 (Trie.new '.' "*" ">") "a.b" 7 (by decide)

/-- C6: after inserting v under the pattern of one literal followed by the
multi-wildcard, the one-token key of the literal alone does not return v
(find returns the empty list), while any strictly longer key starting with
that literal (with wildcard-free tokens after it) returns a result containing
v — the multi-wildcard needs at least one token after its prefix. -/
theorem claim_C6 [DecidableEq V] (v : V) (key : String) (ks : List String)
    (hks : tokensOf '.' key = "a" :: ks) (hne : ks ≠ [])
    (hv : ∀ tok ∈ ks, tok ≠ "" ∧ tok ≠ "*" ∧ tok ≠ ">") :
    (((Trie.new '.' "*" ">" : Trie V).insert "a.>" v).1.find "a" = .ok []) ∧
    (∃ l, ((Trie.new '.' "*" ">" : Trie V).insert "a.>" v).1.find key = .ok l ∧
      v ∈ l) := by
  refine ⟨rfl, ?_⟩
  have hroot : ((Trie.new '.' "*" ">" : Trie V).insert "a.>" v).1 =
      (⟨Node.mk [("a", Node.mk [] none [v] [])] none [] [], '.', "*", ">"⟩ : Trie V) := rfl
  rw [hroot]
  have hkne : key ≠ "" := by
    intro hk
    rw [hk] at hks
    simp [tokensOf, splitChars] at hks
  have htk : tokensFromKey key
      (⟨Node.mk [("a", Node.mk [] none [v] [])] none [] [], '.', "*", ">"⟩ : Trie V).sc =
      .ok ("a" :: ks) := by
    rw [show (⟨Node.mk [("a", Node.mk [] none [v] [])] none [] [], '.', "*", ">"⟩ :
      Trie V).sc = '.' from rfl]
    rw [tokensFromKey_of_ne _ hkne, hks]
  rw [find_eq_of_tokens htk]
  cases ks with
  | nil => exact absurd rfl hne
  | cons k1 krest =>
      obtain ⟨hk1, hk2, hk3⟩ := hv k1 (by simp)
      have hvrest : ∀ tok ∈ krest, tok ≠ "" ∧ tok ≠ "*" ∧ tok ≠ ">" :=
        fun tok htok => hv tok (List.mem_cons_of_mem k1 htok)
      obtain ⟨l2, hl2⟩ := findGo_lit_ok "*" ">" key krest ([] : List (Node V)) hvrest
      have hstep2 : findGo "*" ">" key false [Node.mk [] none [v] []] (k1 :: krest) =
          .ok (joinMap Node.mValueSet [Node.mk ([] : List (String × Node V)) none [v] []]
            ++ l2) := by
        rw [findGo_lit hk1 hk2 hk3 (by rfl) krest]
        rw [show ([Node.mk ([] : List (String × Node V)) none [v] []].filterMap
          (Node.getChild k1)) = [] from by simp [Node.getChild, lookupChild]]
        rw [hl2]
      have hstep1 : findGo "*" ">" key false
          [(⟨Node.mk [("a", Node.mk [] none [v] [])] none [] [], '.', "*", ">"⟩ :
            Trie V).root] ("a" :: k1 :: krest) =
          .ok (joinMap Node.mValueSet
            [(⟨Node.mk [("a", Node.mk [] none [v] [])] none [] [], '.', "*", ">"⟩ :
              Trie V).root] ++
            (joinMap Node.mValueSet [Node.mk ([] : List (String × Node V)) none [v] []]
              ++ l2)) := by
        rw [findGo_lit (by decide) (by decide) (by decide) (by rfl) (k1 :: krest)]
        rw [show ([(⟨Node.mk [("a", Node.mk [] none [v] [])] none [] [], '.', "*", ">"⟩ :
            Trie V).root].filterMap (Node.getChild "a")) =
          [Node.mk ([] : List (String × Node V)) none [v] []] from rfl]
        rw [hstep2]
      rw [hstep1]
      refine ⟨_, rfl, ?_⟩
      simp [joinMap]

/-- C6 witness at a concrete input. -/
theorem claim_C6_witness :
    (((Trie.new '.' "*" ">" : Trie Nat).insert "a.>" 3).1.find "a" = .ok []) ∧
    (∃ l, ((Trie.new '.' "*" ">" : Trie Nat).insert "a.>" 3).1.find "a.b" = .ok l ∧
      3 ∈ l) := by
  exact claim_C6 3 "a.b" ["b"] rfl (by decide) (by decide)

/-- C7 counterexample: CommonTokenParser parse_tokens maps the empty subject
to a Normal token of the empty string, but the trie operations themselves
reject empty tokens — find of the empty subject and insert of a subject with
an empty middle segment both fail with an EmptyToken error rather than
accepting the empty literal. -/
theorem claim_C7_counterexample :
    parse_tokens '.' "*" ">" "" = .ok [Token.Normal ""] ∧
    (Trie.new '.' "*" ">" : Trie Nat).find "" = .error (.EmptyToken "") ∧
    ((Trie.new '.' "*" ">" : Trie Nat).insert "a..b" 0).2 = .error (.EmptyToken "a..b") := by
  exact ⟨rfl, rfl, rfl⟩

/-- C7 amended: the standalone parser of src/token.rs is permissive — a
successful parse classifies every segment in order, so an empty segment
becomes a Normal token of the empty string (given non-empty wildcard marker
texts). The trie of src/lib.rs however validates tokens itself: find, insert,
remove and remove_all fail with an error whenever the key is empty or any
segment of the key is empty. The one exception is exist, which can
short-circuit on a dead frontier before reaching the empty segment and return
a plain Boolean instead of an error, as it does on the key of a literal, a
second literal and a trailing empty segment over a fresh trie. -/
theorem claim_C7_amended [DecidableEq V] (t : Trie V) (key src : String)
    (sc : Char) (owc mwc : String) (toks : List Token) (v : V)
    (howc : owc ≠ "") (hmwc : mwc ≠ "")
    (hp : parse_tokens sc owc mwc src = .ok toks)
    (hkey : "" ∈ tokensOf t.sc key) :
    (toks = (tokensOf sc src).map (classifyToken owc mwc) ∧
      (∀ seg ∈ tokensOf sc src, seg = "" → Token.Normal "" ∈ toks)) ∧
    (∃ e, t.find key = .error e) ∧
    (∃ e t1, t.insert key v = (t1, .error e)) ∧
    (∃ e t1, t.remove key v = (t1, .error e)) ∧
    (∃ e t1, t.removeAll key = (t1, .error e)) ∧
    ((Trie.new '.' "*" ">" : Trie Nat).exist "a.b." = .ok false) := by
  have hcl : toks = (tokensOf sc src).map (classifyToken owc mwc) := by
    have := parseTokensGo_ok owc mwc (tokensOf sc src) [] false toks hp
    simpa using this
  refine ⟨⟨hcl, ?_⟩, ?_, ?_, ?_, ?_, rfl⟩
  · intro seg hseg hseg0
    rw [hcl]
    have : classifyToken owc mwc seg = Token.Normal "" := by
      rw [hseg0]
      simp only [classifyToken]
      rw [if_neg (fun hh => howc hh.symm), if_neg (fun hh => hmwc hh.symm)]
    exact List.mem_map.mpr ⟨seg, hseg, this⟩
  · by_cases hk : key = ""
    · refine ⟨.EmptyToken key, ?_⟩
      apply find_eq_of_error
      unfold tokensFromKey
      rw [if_pos hk]
    · obtain ⟨e, he⟩ := findGo_error_of_empty t.owc t.mwc key (tokensOf t.sc key) false
        [t.root] hkey
      refine ⟨e, ?_⟩
      rw [find_eq_of_tokens (tokensFromKey_of_ne t.sc hk)]
      exact he
  · by_cases hk : key = ""
    · refine ⟨.EmptyToken key, t, ?_⟩
      apply insert_eq_of_error
      unfold tokensFromKey
      rw [if_pos hk]
    · obtain ⟨e, n1, he⟩ := insertGo_error_of_empty t.owc t.mwc key v (tokensOf t.sc key)
        false t.root hkey
      refine ⟨e, ⟨n1, t.sc, t.owc, t.mwc⟩, ?_⟩
      rw [insert_eq_of_tokens (tokensFromKey_of_ne t.sc hk) v, he]
  · by_cases hk : key = ""
    · refine ⟨.EmptyToken key, t, ?_⟩
      apply remove_eq_of_error
      unfold tokensFromKey
      rw [if_pos hk]
    · obtain ⟨e, n1, he⟩ := removeGo_error_of_empty t.owc t.mwc key v (tokensOf t.sc key)
        false t.root hkey
      refine ⟨e, ⟨n1, t.sc, t.owc, t.mwc⟩, ?_⟩
      rw [remove_eq_of_tokens (tokensFromKey_of_ne t.sc hk) v, he]
  · by_cases hk : key = ""
    · refine ⟨.EmptyToken key, t, ?_⟩
      apply removeAll_eq_of_error
      unfold tokensFromKey
      rw [if_pos hk]
    · obtain ⟨e, n1, he⟩ := removeAllGo_error_of_empty t.owc t.mwc key (tokensOf t.sc key)
        false t.root hkey
      refine ⟨e, ⟨n1, t.sc, t.owc, t.mwc⟩, ?_⟩
      rw [removeAll_eq_of_tokens (tokensFromKey_of_ne t.sc hk), he]

/-- C7 amended witness at a concrete input. -/
theorem claim_C7_amended_witness :
    (([Token.Normal "", Token.Normal "", Token.Normal ""] : List Token) =
        (tokensOf '.' "..").map (classifyToken "*" ">") ∧
      (∀ seg ∈ tokensOf '.' "..", seg = "" →
        Token.Normal "" ∈ ([Token.Normal "", Token.Normal "", Token.Normal ""] :
          List Token))) ∧
    (∃ e, (Trie.new '.' "*" ">" : Trie Nat).find "a.." = .error e) ∧
    (∃ e t1, (Trie.new '.' "*" ">" : Trie Nat).insert "a.." 0 = (t1, .error e)) ∧
    (∃ e t1, (Trie.new '.' "*" ">" : Trie Nat).remove "a.." 0 = (t1, .error e)) ∧
    (∃ e t1, (Trie.new '.' "*" ">" : Trie Nat).removeAll "a.." = (t1, .error e)) ∧
    ((Trie.new '.' "*" ">" : Trie Nat).exist "a.b." = .ok false) := by
  exact claim_C7_amended (Trie.new '.' "*" ">") "a.." ".." '.' "*" ">"
    [Token.Normal "", Token.Normal "", Token.Normal ""] 0
    (by decide) (by decide) rfl (by decide)

end TrieModel
